import Mathlib

/-!
# Resource allocation graph simulator

A shallow embedding of `src/simulator.cpp` (class `ResourceAllocationGraph`):
the node map, the edge vector, `addNode`, `addEdge`, `detectDeadlock` and the
recursive helper `dfs`, followed by theorems about them.

Modelling conventions.
* `unordered_map<string, Node> nodes` is an association list with unique keys;
  `nodes[id] = v` is `NodeMap.assign`, `nodes.find(id)` is `NodeMap.find`.
  The iteration order of an `unordered_map` is unspecified, so the loop of
  `detectDeadlock` over `nodes` is modelled by `detectDeadlockOrd`, which
  takes the enumeration order as an argument; `detectDeadlock` uses the order
  in which the keys were first inserted.
* `map<string, bool>` with its default-inserting `operator[]` is a total
  function `String → Bool` that is `false` wherever nothing was stored.
* `map<string, vector<string>> adj` is a total function `String → List String`
  that is `[]` wherever nothing was stored.
* `operator[]` on the node map is read with its usual meaning: the entry is
  created when absent and then assigned.
* console output is modelled only where it distinguishes the branches of
  `addEdge` (`EdgeOutcome`).
* the recursion of `dfs` is driven by a fuel argument that bounds its depth.
* `dfsTrace` repeats `dfs` and records the state in which the "Cycle found"
  branch is entered; `dfs_eq_trace` shows that both compute the same result.
* `Machine` pairs the object with the locals a call of `detectDeadlock` leaves
  behind, so that two successive calls can be compared.
-/

namespace RAG

/-! ## Data model -/

/-- Source `enum class NodeType`. -/
inductive NodeType where
  | PROCESS
  | RESOURCE
  deriving DecidableEq, Repr

/-- Source `struct Node`. -/
structure Node where
  id : String
  type : NodeType
  instances : Int
  deriving DecidableEq, Repr

/-- Source `struct Edge`; the field `type` holds "allocation" or "request". -/
structure Edge where
  «from» : String
  «to» : String
  type : String
  deriving DecidableEq, Repr

/-- The node map: an association list whose keys are pairwise distinct. -/
abbrev NodeMap := List (String × Node)

/-- Source `nodes.find(k)`: a lookup that never inserts. -/
def NodeMap.find : NodeMap → String → Option Node
  | [], _ => none
  | (k', v) :: rest, k => if k' = k then some v else NodeMap.find rest k

/-- Source `nodes[k] = v`: overwrite the entry of `k`, or create it. -/
def NodeMap.assign : NodeMap → String → Node → NodeMap
  | [], k, v => [(k, v)]
  | (k', v') :: rest, k, v =>
      if k' = k then (k', v) :: rest else (k', v') :: NodeMap.assign rest k v

/-- The keys of the node map, in stored order. -/
def NodeMap.keys (m : NodeMap) : List String := m.map Prod.fst

/-- The private state of `ResourceAllocationGraph`. -/
structure Graph where
  nodes : NodeMap
  edges : List Edge
  deriving DecidableEq, Repr

/-- A freshly constructed `ResourceAllocationGraph`. -/
def Graph.empty : Graph := ⟨[], []⟩

/-! ## Mutators -/

/-- Source `addNode` (lines 40-44): `nodes[id] = Node(id, type, instances)`.
The C++ default `instances = 1` is passed explicitly by callers of this definition. -/
def addNode (g : Graph) (id : String) (type : NodeType) (instances : Int) : Graph :=
  { g with nodes := g.nodes.assign id ⟨id, type, instances⟩ }

/-- The three console branches of `addEdge`. -/
inductive EdgeOutcome where
  /-- Prints "Error: One or both nodes do not exist!" and returns early. -/
  | missingNode
  /-- Prints "Allocation edge added: ..." or "Request edge added: ...". -/
  | added
  /-- Prints "Invalid edge type!". -/
  | invalidType
  deriving DecidableEq, Repr

/-- Source `addEdge` (lines 46-62), returning the new state and the branch taken. -/
def addEdge (g : Graph) («from» «to» type : String) : Graph × EdgeOutcome :=
  match g.nodes.find «from», g.nodes.find «to» with
  | some f, some t =>
      if (f.type = NodeType.PROCESS ∧ t.type = NodeType.RESOURCE ∧ type = "request") ∨
         (f.type = NodeType.RESOURCE ∧ t.type = NodeType.PROCESS ∧ type = "allocation") then
        ({ g with edges := g.edges ++ [⟨«from», «to», type⟩] }, EdgeOutcome.added)
      else
        (g, EdgeOutcome.invalidType)
  | _, _ => (g, EdgeOutcome.missingNode)

/-! ## Deadlock detection -/

/-- Source `map<string, bool>`: absent keys read as `false`. -/
abbrev BoolMap := String → Bool

/-- Source `m[k] = b` on a `map<string, bool>`. -/
def BoolMap.set (m : BoolMap) (k : String) (b : Bool) : BoolMap :=
  fun x => if x = k then b else m x

/-- Source `map<string, vector<string>>`: absent keys read as the empty vector. -/
abbrev AdjMap := String → List String

/-- Source `adj[k].push_back(v)`. -/
def AdjMap.pushBack (adj : AdjMap) (k v : String) : AdjMap :=
  fun x => if x = k then adj x ++ [v] else adj x

/-- Source lines 66-70 of `detectDeadlock`: the adjacency list built from `edges`. -/
def buildAdj (edges : List Edge) : AdjMap :=
  edges.foldl (fun adj e => adj.pushBack e.«from» e.«to») (fun _ => [])

/-- The three reference arguments `visited`, `recStack`, `path` that `dfs` mutates. -/
structure DfsState where
  visited : BoolMap
  recStack : BoolMap
  path : List String

/-- Source lines 131-134: `it = find(path.begin(), path.end(), neighbor)`, then
`path.erase(path.begin(), it)` when `it != path.end()`. -/
def eraseBefore (path : List String) (neighbor : String) : List String :=
  let it := path.indexOf neighbor
  if it ≠ path.length then path.drop it else path

/-- The `for (neighbor : adj[node])` loop of `dfs` (lines 126-137); `recurse` stands
for the recursive call `dfs(neighbor, ...)`. The result is `some (true, s)` when the
loop executes `return true`, and `some (false, s)` when it runs to its end. -/
def dfsLoop (recurse : String → DfsState → Option (Bool × DfsState)) :
    List String → DfsState → Option (Bool × DfsState)
  | [], s => some (false, s)
  | neighbor :: rest, s =>
      if s.visited neighbor = false then
        match recurse neighbor s with
        | none => none
        | some (true, s1) => some (true, s1)
        | some (false, s1) =>
            if s1.recStack neighbor = true then
              some (true, { s1 with path := eraseBefore s1.path neighbor })
            else dfsLoop recurse rest s1
      else if s.recStack neighbor = true then
        some (true, { s with path := eraseBefore s.path neighbor })
      else dfsLoop recurse rest s

/-- Source `dfs` (lines 115-143). `none` means the fuel, which bounds the depth of
the recursion, ran out. -/
def dfs (adj : AdjMap) : Nat → String → DfsState → Option (Bool × DfsState)
  | 0, _, _ => none
  | fuel + 1, node, s =>
      if s.visited node = false then
        let s1 : DfsState :=
          { visited := s.visited.set node true
            recStack := s.recStack.set node true
            path := s.path ++ [node] }
        match dfsLoop (dfs adj fuel) (adj node) s1 with
        | none => none
        | some (true, s2) => some (true, s2)
        | some (false, s2) =>
            some (false, { s2 with path := s2.path.dropLast
                                   recStack := s2.recStack.set node false })
      else
        some (false, { s with recStack := s.recStack.set node false })

/-- What a call of `detectDeadlock` yields: the returned boolean and the contents of
the local vector `cycle` at the moment of return (printed when the boolean is true). -/
structure Report where
  deadlocked : Bool
  cycle : List String
  deriving DecidableEq, Repr

/-- The `for (node_pair : nodes)` loop of `detectDeadlock` (lines 77-91) over the
keys in the given enumeration order. -/
def detectLoop (adj : AdjMap) (fuel : Nat) : List String → DfsState → Option Report
  | [], s => some ⟨false, s.path⟩
  | k :: ks, s =>
      match dfs adj fuel k s with
      | none => none
      | some (true, s1) => some ⟨true, s1.path⟩
      | some (false, s1) => detectLoop adj fuel ks s1

/-- The recursion depth that `detectDeadlockOrd` allows `dfs`: one more than the number
of keys enumerated plus the number of edges, which bounds the number of distinct
strings `dfs` can ever mark visited. -/
def dfsFuel (order : List String) (edges : List Edge) : Nat :=
  order.length + edges.length + 1

/-- Source `detectDeadlock` (lines 64-92), with the enumeration order of the
`unordered_map` made explicit. -/
def detectDeadlockOrd (g : Graph) (order : List String) : Option Report :=
  detectLoop (buildAdj g.edges) (dfsFuel order g.edges) order
    { visited := fun _ => false, recStack := fun _ => false, path := [] }

/-- Source `detectDeadlock`, enumerating the node map in stored order. -/
def detectDeadlock (g : Graph) : Option Report :=
  detectDeadlockOrd g g.nodes.keys

/-- The `for (node_pair : nodes)` loop of `detectDeadlock` once more, keeping the three
locals as they stand when the function returns instead of only the returned boolean and
the `cycle` vector. -/
def detectLoopSt (adj : AdjMap) (fuel : Nat) :
    List String → DfsState → Option (Bool × DfsState)
  | [], s => some (false, s)
  | k :: ks, s =>
      match dfs adj fuel k s with
      | none => none
      | some (true, s1) => some (true, s1)
      | some (false, s1) => detectLoopSt adj fuel ks s1

/-- The object together with whatever the previous call of `detectDeadlock` left in its
locals `visited`, `recStack` and `cycle`: the state a later call could pick up if
anything of the analysis survived a call. -/
structure Machine where
  obj : Graph
  leftover : DfsState

/-- Source `detectDeadlock` (lines 64-92) as a step of the machine. `enum` is the order
in which the implementation enumerates a node map, a function of the map alone. Lines
66-70 build `adj` from the member `edges`; lines 73-75 default-construct `visited`,
`recStack` and `cycle`, so the loop starts from empty maps and an empty vector and not
from `leftover`; nothing assigns to the members `nodes` and `edges`. The step yields the
machine after the call, holding the locals as they stood at the return, and the
report. -/
def Machine.detectDeadlock (enum : NodeMap → List String) (m : Machine) :
    Option (Machine × Report) :=
  match detectLoopSt (buildAdj m.obj.edges) (dfsFuel (enum m.obj.nodes) m.obj.edges)
      (enum m.obj.nodes)
      { visited := fun _ => false, recStack := fun _ => false, path := [] } with
  | none => none
  | some (b, s) => some ({ obj := m.obj, leftover := s }, ⟨b, s.path⟩)

/-- The moment `dfs` enters its "Cycle found" branch (lines 129-135): the three reference
arguments as they stand just before `find` and `path.erase`, the node whose neighbours
are being scanned, and the neighbour that was found on the recursion stack. -/
structure Detection where
  state : DfsState
  node : String
  neighbor : String

/-- How a run of `dfs` ends: in the "Cycle found" branch, or by returning `false`. -/
inductive Trace where
  | found (d : Detection)
  | finished (s : DfsState)

/-- What `dfs` returns at the end of a run: after a detection, `true` and the state with
`path` erased up to the re-encountered neighbour (lines 131-135); otherwise `false`. -/
def Trace.result : Trace → Bool × DfsState
  | .found d => (true, { d.state with path := eraseBefore d.state.path d.neighbor })
  | .finished s => (false, s)

/-- The loop of `dfs` (lines 126-137) as in `dfsLoop`, recording the detection instead of
carrying out the erasure; `node` is the node whose neighbours are scanned. -/
def dfsLoopTrace (recurse : String → DfsState → Option Trace) (node : String) :
    List String → DfsState → Option Trace
  | [], s => some (.finished s)
  | neighbor :: rest, s =>
      if s.visited neighbor = false then
        match recurse neighbor s with
        | none => none
        | some (.found d) => some (.found d)
        | some (.finished s1) =>
            if s1.recStack neighbor = true then some (.found ⟨s1, node, neighbor⟩)
            else dfsLoopTrace recurse node rest s1
      else if s.recStack neighbor = true then some (.found ⟨s, node, neighbor⟩)
      else dfsLoopTrace recurse node rest s

/-- Source `dfs` (lines 115-143) as in `dfs`, recording the detection. -/
def dfsTrace (adj : AdjMap) : Nat → String → DfsState → Option Trace
  | 0, _, _ => none
  | fuel + 1, node, s =>
      if s.visited node = false then
        let s1 : DfsState :=
          { visited := s.visited.set node true
            recStack := s.recStack.set node true
            path := s.path ++ [node] }
        match dfsLoopTrace (dfsTrace adj fuel) node (adj node) s1 with
        | none => none
        | some (.found d) => some (.found d)
        | some (.finished s2) =>
            some (.finished { s2 with path := s2.path.dropLast
                                      recStack := s2.recStack.set node false })
      else
        some (.finished { s with recStack := s.recStack.set node false })

/-- The loop of `detectDeadlock` over the keys as in `detectLoop`, recording the
detection. -/
def detectLoopTrace (adj : AdjMap) (fuel : Nat) : List String → DfsState → Option Trace
  | [], s => some (.finished s)
  | k :: ks, s =>
      match dfsTrace adj fuel k s with
      | none => none
      | some (.found d) => some (.found d)
      | some (.finished s1) => detectLoopTrace adj fuel ks s1

/-- Source `detectDeadlock` as in `detectDeadlockOrd`, recording the detection. -/
def detectDeadlockTrace (g : Graph) (order : List String) : Option Trace :=
  detectLoopTrace (buildAdj g.edges) (dfsFuel order g.edges) order
    { visited := fun _ => false, recStack := fun _ => false, path := [] }

/-- The report that `detectDeadlock` makes of a run. -/
def Trace.report (t : Trace) : Report := ⟨t.result.1, t.result.2.path⟩

/-! ## The two scenarios of `main` -/

/-- Source lines 153-164: the classic deadlock scenario. -/
def classicScenario : Graph :=
  let g := addNode Graph.empty "P1" NodeType.PROCESS 1
  let g := addNode g "P2" NodeType.PROCESS 1
  let g := addNode g "R1" NodeType.RESOURCE 1
  let g := addNode g "R2" NodeType.RESOURCE 1
  let g := (addEdge g "P1" "R1" "request").1
  let g := (addEdge g "R1" "P2" "allocation").1
  let g := (addEdge g "P2" "R2" "request").1
  (addEdge g "R2" "P1" "allocation").1

/-- Source lines 172-179: the scenario that `main` announces as deadlock-free. -/
def multiInstanceScenario : Graph :=
  let g := addNode Graph.empty "P1" NodeType.PROCESS 1
  let g := addNode g "P2" NodeType.PROCESS 1
  let g := addNode g "R1" NodeType.RESOURCE 2
  let g := (addEdge g "P1" "R1" "request").1
  let g := (addEdge g "R1" "P1" "allocation").1
  let g := (addEdge g "P2" "R1" "request").1
  (addEdge g "R1" "P2" "allocation").1

/-! ## Further concrete graphs -/

/-- Two processes and the single-instance resource `R1`, already allocated to `P1`. -/
def capacityScenario : Graph :=
  let g := addNode Graph.empty "P1" NodeType.PROCESS 1
  let g := addNode g "P2" NodeType.PROCESS 1
  let g := addNode g "R1" NodeType.RESOURCE 1
  (addEdge g "R1" "P1" "allocation").1

/-- A process node `P1` on its own. -/
def singleProcess : Graph := addNode Graph.empty "P1" NodeType.PROCESS 1

/-- A request edge `P1 -> R1`, after which `P1` is added again as a resource. -/
def retypedScenario : Graph :=
  let g := addNode Graph.empty "P1" NodeType.PROCESS 1
  let g := addNode g "R1" NodeType.RESOURCE 1
  let g := (addEdge g "P1" "R1" "request").1
  addNode g "P1" NodeType.RESOURCE 1

/-- A process `P1` and a resource `R1` with one request edge `P1 -> R1`. -/
def requestScenario : Graph :=
  let g := addNode Graph.empty "P1" NodeType.PROCESS 1
  let g := addNode g "R1" NodeType.RESOURCE 1
  (addEdge g "P1" "R1" "request").1

/-- The graph `requestScenario` after the same `addEdge` call is issued again. -/
def duplicateScenario : Graph :=
  (addEdge requestScenario "P1" "R1" "request").1

/-- A resource added with zero instances. -/
def zeroInstanceScenario : Graph := addNode Graph.empty "R1" NodeType.RESOURCE 0

/-! ## Reachable graphs and the properties the theorems speak about -/

/-- The graphs a caller can build: any sequence of `addNode` and `addEdge` calls on a
freshly constructed object. -/
inductive Reachable : Graph → Prop
  | empty : Reachable Graph.empty
  | addNode {g : Graph} (id : String) (type : NodeType) (instances : Int) :
      Reachable g → Reachable (addNode g id type instances)
  | addEdge {g : Graph} («from» «to» type : String) :
      Reachable g → Reachable (addEdge g «from» «to» type).1

/-- The graphs built by call sequences in which `addNode` never changes the type of a
node: each call either names a new id or repeats the type the id already has. -/
inductive ReachableTypeStable : Graph → Prop
  | empty : ReachableTypeStable Graph.empty
  | addNode {g : Graph} (id : String) (type : NodeType) (instances : Int) :
      (∀ n, g.nodes.find id = some n → n.type = type) → ReachableTypeStable g →
      ReachableTypeStable (addNode g id type instances)
  | addEdge {g : Graph} («from» «to» type : String) :
      ReachableTypeStable g → ReachableTypeStable (addEdge g «from» «to» type).1

/-- The graphs built by call sequences in which every Resource is added with a positive
instance count. -/
inductive ReachablePositive : Graph → Prop
  | empty : ReachablePositive Graph.empty
  | addNode {g : Graph} (id : String) (type : NodeType) (instances : Int) :
      (type = NodeType.RESOURCE → 0 < instances) → ReachablePositive g →
      ReachablePositive (addNode g id type instances)
  | addEdge {g : Graph} («from» «to» type : String) :
      ReachablePositive g → ReachablePositive (addEdge g «from» «to» type).1

/-- The stored edges contain an edge from `a` to `b`. -/
def HasEdge (g : Graph) (a b : String) : Prop :=
  ∃ e ∈ g.edges, e.«from» = a ∧ e.«to» = b

/-- The stored edges contain a directed cycle: a non-empty sequence of nodes with an
edge from each node to the next and an edge from the last node back to the first. -/
def HasCycle (g : Graph) : Prop :=
  ∃ (c : List String) (h : c ≠ []), List.Chain' (HasEdge g) c ∧
    HasEdge g (c.getLast h) (c.head h)

/-- The number of allocation edges leaving `r`. -/
def allocCount (g : Graph) (r : String) : Nat :=
  (g.edges.filter fun e => e.«from» = r ∧ e.type = "allocation").length

/-- The direction rule read against the current node map: every stored "request" edge
goes from a Process to a Resource and every stored "allocation" edge from a Resource to
a Process. -/
def DirectionOK (g : Graph) : Prop :=
  ∀ e ∈ g.edges,
    (e.type = "request" → ∃ f t, g.nodes.find e.«from» = some f ∧ g.nodes.find e.«to» = some t ∧
        f.type = NodeType.PROCESS ∧ t.type = NodeType.RESOURCE) ∧
    (e.type = "allocation" → ∃ f t, g.nodes.find e.«from» = some f ∧ g.nodes.find e.«to» = some t ∧
        f.type = NodeType.RESOURCE ∧ t.type = NodeType.PROCESS)

/-! ## Vocabulary for the analysis of `dfs` -/

/-- The edge relation an adjacency list stands for. -/
def AdjRel (adj : AdjMap) (a b : String) : Prop := b ∈ adj a

/-- A node is finished: it was visited and is no longer on the recursion stack. -/
def Finished (s : DfsState) (x : String) : Prop :=
  s.visited x = true ∧ s.recStack x = false

/-- Every node on the recursion stack has been visited. -/
def StackVisited (s : DfsState) : Prop :=
  ∀ x, s.recStack x = true → s.visited x = true

/-- The finished nodes are closed under the edge relation and none of them lies on a
closed walk. -/
def FinishedClosed (adj : AdjMap) (s : DfsState) : Prop :=
  ∀ x, Finished s x →
    (∀ y ∈ adj x, Finished s y) ∧ ¬ Relation.TransGen (AdjRel adj) x x

/-- The unvisited part of a finite universe of node ids. -/
def unvisited (U : Finset String) (s : DfsState) : Finset String :=
  U.filter fun x => s.visited x = false

/-- What a call of `dfs`, or a run of its loop, that ends with `false` leaves behind:
visited nodes stay visited, the recursion stack and the path are as before, and the
finished nodes are still closed. -/
def FramePost (adj : AdjMap) (s s1 : DfsState) : Prop :=
  (∀ x, s.visited x = true → s1.visited x = true) ∧
  (∀ x, s1.recStack x = s.recStack x) ∧
  FinishedClosed adj s1 ∧
  s1.path = s.path

/-- The contract of one call `recurse node s` of `dfs` with recursion depth `fuel`, over a
finite universe `U` of node ids: the call returns; when it returns `true` the graph has a
closed walk; when it returns `false` the frame is kept and `node` is visited. -/
def DfsContract (adj : AdjMap) (U : Finset String) (fuel : Nat)
    (recurse : String → DfsState → Option (Bool × DfsState)) : Prop :=
  ∀ node s, node ∈ U → (unvisited U s).card < fuel → StackVisited s →
    s.recStack node = false →
    (∀ x, s.recStack x = true → Relation.ReflTransGen (AdjRel adj) x node) →
    FinishedClosed adj s →
    ∃ b s1, recurse node s = some (b, s1) ∧
      (b = true → ∃ x, Relation.TransGen (AdjRel adj) x x) ∧
      (b = false → FramePost adj s s1 ∧ s1.visited node = true)

/-- The state kept about the current DFS path: `path` holds no node twice, consecutive
nodes of it are joined by edges, the recursion stack marks exactly the nodes of `path`,
and every node on the stack has been visited. -/
def PathInv (adj : AdjMap) (s : DfsState) : Prop :=
  s.path.Nodup ∧ List.Chain' (AdjRel adj) s.path ∧
  (∀ x, s.recStack x = true ↔ x ∈ s.path) ∧ StackVisited s

/-- What `dfs` leaves in `path` when it returns `true`. At the moment of detection the
DFS path was `full`, which extends `p` and ends in the current node `cur`; an edge leads
from `cur` to the re-encountered node `nb`, which lies on `full`; and `cyc` is `full`
with everything before `nb` erased. -/
def Detected (adj : AdjMap) (p cyc : List String) : Prop :=
  ∃ (full : List String) (nb cur : String),
    p <+: full ∧ full.Nodup ∧ List.Chain' (AdjRel adj) full ∧
    full.getLast? = some cur ∧ AdjRel adj cur nb ∧ nb ∈ full ∧
    cyc = full.drop (full.indexOf nb)

/-- The contract of one call `recurse node s` of `dfs` about the path, for calls that
return: a `false` result leaves the recursion stack and the path as they were, a `true`
result leaves a detected cycle whose path extends `s.path ++ [node]`. -/
def PathContract (adj : AdjMap)
    (recurse : String → DfsState → Option (Bool × DfsState)) : Prop :=
  ∀ node s b s1, recurse node s = some (b, s1) → PathInv adj s →
    s.recStack node = false → (∀ l ∈ s.path.getLast?, AdjRel adj l node) →
    (b = false → (∀ x, s.visited x = true → s1.visited x = true) ∧
      (∀ x, s1.recStack x = s.recStack x) ∧ s1.path = s.path) ∧
    (b = true → Detected adj (s.path ++ [node]) s1.path)

/-- What holds at a detection reached from a DFS path `p`: the recorded state is a DFS
state whose path extends `p` and ends in the node being scanned, an edge leads from that
node to the recorded neighbour, and the neighbour is visited and on the recursion
stack. -/
def DetectionOK (adj : AdjMap) (p : List String) (d : Detection) : Prop :=
  PathInv adj d.state ∧ p <+: d.state.path ∧ d.state.path.getLast? = some d.node ∧
  AdjRel adj d.node d.neighbor ∧ d.state.visited d.neighbor = true ∧
  d.state.recStack d.neighbor = true

/-- The contract of one recorded call `recurse node s` of `dfs`: a detection it ends in is
as `DetectionOK` says, on a path that extends `s.path ++ [node]`. -/
def TraceContract (adj : AdjMap) (recurse : String → DfsState → Option Trace) : Prop :=
  ∀ node s d, recurse node s = some (.found d) → PathInv adj s →
    s.recStack node = false → (∀ l ∈ s.path.getLast?, AdjRel adj l node) →
    DetectionOK adj (s.path ++ [node]) d

/-! ## The node map -/

theorem NodeMap.find_assign_self (m : NodeMap) (k : String) (v : Node) :
    (m.assign k v).find k = some v := by
  induction m with
  | nil => simp [NodeMap.assign, NodeMap.find]
  | cons p rest ih =>
    obtain ⟨k', v'⟩ := p
    by_cases h : k' = k
    · simp [NodeMap.assign, NodeMap.find, h]
    · simp [NodeMap.assign, NodeMap.find, h, ih]

theorem NodeMap.find_assign_ne (m : NodeMap) (k x : String) (v : Node) (hx : x ≠ k) :
    (m.assign k v).find x = m.find x := by
  induction m with
  | nil =>
    have : ¬ k = x := fun h => hx h.symm
    simp [NodeMap.assign, NodeMap.find, this]
  | cons p rest ih =>
    obtain ⟨k', v'⟩ := p
    by_cases h : k' = k
    · have : ¬ k = x := fun h => hx h.symm
      simp [NodeMap.assign, NodeMap.find, h, this]
    · by_cases h2 : k' = x
      · subst h2
        simp [NodeMap.assign, NodeMap.find, h]
      · simp [NodeMap.assign, NodeMap.find, h, h2, ih]

theorem NodeMap.find_eq_none_iff (m : NodeMap) (k : String) :
    m.find k = none ↔ k ∉ m.keys := by
  induction m with
  | nil => simp [NodeMap.find, NodeMap.keys]
  | cons p rest ih =>
    obtain ⟨k', v'⟩ := p
    by_cases h : k' = k
    · simp [NodeMap.find, NodeMap.keys, h]
    · have h2 : ¬ k = k' := fun e => h e.symm
      simp only [NodeMap.keys] at ih
      simp [NodeMap.find, NodeMap.keys, h, h2, ih]

theorem NodeMap.keys_assign_of_mem (m : NodeMap) (k : String) (v : Node) (hk : k ∈ m.keys) :
    (m.assign k v).keys = m.keys := by
  induction m with
  | nil => simp [NodeMap.keys] at hk
  | cons p rest ih =>
    obtain ⟨k', v'⟩ := p
    by_cases h : k' = k
    · simp [NodeMap.assign, NodeMap.keys, h]
    · have h2 : ¬ k = k' := fun e => h e.symm
      simp only [NodeMap.keys, List.map_cons, List.mem_cons, h2, false_or] at hk
      simp only [NodeMap.keys] at ih
      simp [NodeMap.assign, NodeMap.keys, h, ih hk]

theorem NodeMap.keys_assign_of_not_mem (m : NodeMap) (k : String) (v : Node)
    (hk : k ∉ m.keys) : (m.assign k v).keys = m.keys ++ [k] := by
  induction m with
  | nil => simp [NodeMap.assign, NodeMap.keys]
  | cons p rest ih =>
    obtain ⟨k', v'⟩ := p
    simp only [NodeMap.keys, List.map_cons, List.mem_cons, not_or] at hk
    have h : ¬ k' = k := fun e => hk.1 e.symm
    simp only [NodeMap.keys] at ih
    simp [NodeMap.assign, NodeMap.keys, h, ih hk.2]

theorem NodeMap.mem_keys_assign (m : NodeMap) (k x : String) (v : Node) :
    x ∈ (m.assign k v).keys ↔ x = k ∨ x ∈ m.keys := by
  by_cases hk : k ∈ m.keys
  · rw [NodeMap.keys_assign_of_mem m k v hk]
    constructor
    · exact fun h => Or.inr h
    · rintro (rfl | h)
      · exact hk
      · exact h
  · rw [NodeMap.keys_assign_of_not_mem m k v hk]
    simp [or_comm]

/-! ## Concrete graphs are reachable -/

theorem reachable_classicScenario : Reachable classicScenario :=
  .addEdge _ _ _ (.addEdge _ _ _ (.addEdge _ _ _ (.addEdge _ _ _
    (.addNode _ _ _ (.addNode _ _ _ (.addNode _ _ _ (.addNode _ _ _ .empty)))))))

theorem reachable_multiInstanceScenario : Reachable multiInstanceScenario :=
  .addEdge _ _ _ (.addEdge _ _ _ (.addEdge _ _ _ (.addEdge _ _ _
    (.addNode _ _ _ (.addNode _ _ _ (.addNode _ _ _ .empty))))))

theorem reachable_capacityScenario : Reachable capacityScenario :=
  .addEdge _ _ _ (.addNode _ _ _ (.addNode _ _ _ (.addNode _ _ _ .empty)))

theorem reachable_requestScenario : Reachable requestScenario :=
  .addEdge _ _ _ (.addNode _ _ _ (.addNode _ _ _ .empty))

theorem NodeMap.type_of_absent {m : NodeMap} {k : String} (h : m.find k = none)
    (type : NodeType) : ∀ n, m.find k = some n → n.type = type := by
  intro n hn
  rw [h] at hn
  exact Option.noConfusion hn

theorem typeStable_requestScenario : ReachableTypeStable requestScenario :=
  .addEdge _ _ _ (.addNode _ _ _ (NodeMap.type_of_absent (by decide) _)
    (.addNode _ _ _ (NodeMap.type_of_absent (by decide) _) .empty))

theorem positive_requestScenario : ReachablePositive requestScenario :=
  .addEdge _ _ _ (.addNode _ _ _ (fun _ => by decide)
    (.addNode _ _ _ (fun _ => by decide) .empty))

/-! ## `addEdge`: the three branches -/

theorem addEdge_of_missing (g : Graph) («from» «to» type : String)
    (h : g.nodes.find «from» = none ∨ g.nodes.find «to» = none) :
    addEdge g «from» «to» type = (g, EdgeOutcome.missingNode) := by
  unfold addEdge
  rcases h with h | h
  · rw [h]
  · rw [h]
    cases g.nodes.find «from» <;> rfl

theorem addEdge_of_mismatch (g : Graph) («from» «to» type : String) (f t : Node)
    (hf : g.nodes.find «from» = some f) (ht : g.nodes.find «to» = some t)
    (hbad : ¬ ((f.type = NodeType.PROCESS ∧ t.type = NodeType.RESOURCE ∧ type = "request") ∨
      (f.type = NodeType.RESOURCE ∧ t.type = NodeType.PROCESS ∧ type = "allocation"))) :
    addEdge g «from» «to» type = (g, EdgeOutcome.invalidType) := by
  simp only [addEdge, hf, ht]
  rw [if_neg hbad]

theorem addEdge_of_direction_ok (g : Graph) («from» «to» type : String) (f t : Node)
    (hf : g.nodes.find «from» = some f) (ht : g.nodes.find «to» = some t)
    (hok : (f.type = NodeType.PROCESS ∧ t.type = NodeType.RESOURCE ∧ type = "request") ∨
      (f.type = NodeType.RESOURCE ∧ t.type = NodeType.PROCESS ∧ type = "allocation")) :
    addEdge g «from» «to» type =
      ({ g with edges := g.edges ++ [⟨«from», «to», type⟩] }, EdgeOutcome.added) := by
  simp only [addEdge, hf, ht]
  rw [if_pos hok]

theorem addEdge_cases (g : Graph) («from» «to» type : String) :
    (addEdge g «from» «to» type = (g, EdgeOutcome.missingNode) ∧
        (g.nodes.find «from» = none ∨ g.nodes.find «to» = none)) ∨
    (addEdge g «from» «to» type = (g, EdgeOutcome.invalidType) ∧
        ∃ f t, g.nodes.find «from» = some f ∧ g.nodes.find «to» = some t ∧
          ¬ ((f.type = NodeType.PROCESS ∧ t.type = NodeType.RESOURCE ∧ type = "request") ∨
            (f.type = NodeType.RESOURCE ∧ t.type = NodeType.PROCESS ∧ type = "allocation"))) ∨
    (addEdge g «from» «to» type =
        ({ g with edges := g.edges ++ [⟨«from», «to», type⟩] }, EdgeOutcome.added) ∧
        ∃ f t, g.nodes.find «from» = some f ∧ g.nodes.find «to» = some t ∧
          ((f.type = NodeType.PROCESS ∧ t.type = NodeType.RESOURCE ∧ type = "request") ∨
            (f.type = NodeType.RESOURCE ∧ t.type = NodeType.PROCESS ∧ type = "allocation"))) := by
  rcases hf : g.nodes.find «from» with _ | f
  · exact Or.inl ⟨addEdge_of_missing g _ _ _ (Or.inl hf), Or.inl rfl⟩
  rcases ht : g.nodes.find «to» with _ | t
  · exact Or.inl ⟨addEdge_of_missing g _ _ _ (Or.inr ht), Or.inr rfl⟩
  by_cases hok : (f.type = NodeType.PROCESS ∧ t.type = NodeType.RESOURCE ∧ type = "request") ∨
      (f.type = NodeType.RESOURCE ∧ t.type = NodeType.PROCESS ∧ type = "allocation")
  · exact Or.inr (Or.inr ⟨addEdge_of_direction_ok g _ _ _ f t hf ht hok, f, t, rfl, rfl, hok⟩)
  · exact Or.inr (Or.inl ⟨addEdge_of_mismatch g _ _ _ f t hf ht hok, f, t, rfl, rfl, hok⟩)

/-! ## `addEdge`: rejections -/

/-- C4: when both endpoints exist and the type does not match the direction rule
(neither Process->Resource with "request" nor Resource->Process with "allocation"),
`addEdge` takes its "Invalid edge type!" branch and returns the graph as it was, so the
node map and the edge list are unchanged. -/
theorem addEdge_direction_mismatch_rejected (g : Graph) («from» «to» type : String)
    (f t : Node) (hf : g.nodes.find «from» = some f) (ht : g.nodes.find «to» = some t)
    (hbad : ¬ ((f.type = NodeType.PROCESS ∧ t.type = NodeType.RESOURCE ∧ type = "request") ∨
      (f.type = NodeType.RESOURCE ∧ t.type = NodeType.PROCESS ∧ type = "allocation"))) :
    addEdge g «from» «to» type = (g, EdgeOutcome.invalidType) ∧
      (addEdge g «from» «to» type).1.nodes = g.nodes ∧
      (addEdge g «from» «to» type).1.edges = g.edges := by
  rw [addEdge_of_mismatch g _ _ _ f t hf ht hbad]
  exact ⟨rfl, rfl, rfl⟩

theorem addEdge_direction_mismatch_rejected_witness :
    addEdge requestScenario "P1" "R1" "allocation" = (requestScenario, EdgeOutcome.invalidType) ∧
      (addEdge requestScenario "P1" "R1" "allocation").1.nodes = requestScenario.nodes ∧
      (addEdge requestScenario "P1" "R1" "allocation").1.edges = requestScenario.edges :=
  addEdge_direction_mismatch_rejected requestScenario "P1" "R1" "allocation"
    ⟨"P1", NodeType.PROCESS, 1⟩ ⟨"R1", NodeType.RESOURCE, 1⟩ (by decide) (by decide) (by decide)

/-- C5: when `from` or `to` does not name a node, `addEdge` takes its "nodes do not
exist" branch and returns the graph as it was: no edge is appended, and the node map
is the same list as before, so the lookup created no entry for the missing id. -/
theorem addEdge_missing_node_rejected (g : Graph) («from» «to» type : String)
    (h : g.nodes.find «from» = none ∨ g.nodes.find «to» = none) :
    addEdge g «from» «to» type = (g, EdgeOutcome.missingNode) ∧
      (addEdge g «from» «to» type).1.edges = g.edges ∧
      (addEdge g «from» «to» type).1.nodes = g.nodes ∧
      (addEdge g «from» «to» type).1.nodes.find «from» = g.nodes.find «from» ∧
      (addEdge g «from» «to» type).1.nodes.find «to» = g.nodes.find «to» := by
  rw [addEdge_of_missing g _ _ _ h]
  exact ⟨rfl, rfl, rfl, rfl, rfl⟩

theorem addEdge_missing_node_rejected_witness :
    addEdge singleProcess "P1" "R9" "request" = (singleProcess, EdgeOutcome.missingNode) ∧
      (addEdge singleProcess "P1" "R9" "request").1.edges = singleProcess.edges ∧
      (addEdge singleProcess "P1" "R9" "request").1.nodes = singleProcess.nodes ∧
      (addEdge singleProcess "P1" "R9" "request").1.nodes.find "P1" =
        singleProcess.nodes.find "P1" ∧
      (addEdge singleProcess "P1" "R9" "request").1.nodes.find "R9" =
        singleProcess.nodes.find "R9" :=
  addEdge_missing_node_rejected singleProcess "P1" "R9" "request" (Or.inr (by decide))


/-! ## `addEdge`: no capacity check -/

/-- C6, as stated, fails: `R1` has one instance and is already allocated to `P1`, yet
`addEdge(R1, P2, "allocation")` appends the edge, after which two allocation edges leave
`R1`. -/
theorem capacity_not_enforced :
    Reachable capacityScenario ∧
      capacityScenario.nodes.find "R1" = some ⟨"R1", NodeType.RESOURCE, 1⟩ ∧
      (⟨"R1", "P1", "allocation"⟩ : Edge) ∈ capacityScenario.edges ∧
      (addEdge capacityScenario "R1" "P2" "allocation").2 = EdgeOutcome.added ∧
      (addEdge capacityScenario "R1" "P2" "allocation").1.edges =
        capacityScenario.edges ++ [⟨"R1", "P2", "allocation"⟩] ∧
      allocCount (addEdge capacityScenario "R1" "P2" "allocation").1 "R1" = 2 :=
  ⟨reachable_capacityScenario, by decide, by decide, by decide, by decide, by decide⟩

/-- C6, amended: `addEdge` has no capacity check. Whenever `r` names a Resource and `p`
names a Process, `addEdge(r, p, "allocation")` appends the edge whatever the instance
count of `r` and however many allocation edges already leave it, so the number of
allocation edges leaving `r` grows by one. -/
theorem addEdge_allocation_ignores_capacity (g : Graph) (r p : String) (nr np : Node)
    (hr : g.nodes.find r = some nr) (hp : g.nodes.find p = some np)
    (hrt : nr.type = NodeType.RESOURCE) (hpt : np.type = NodeType.PROCESS) :
    addEdge g r p "allocation" =
        ({ g with edges := g.edges ++ [⟨r, p, "allocation"⟩] }, EdgeOutcome.added) ∧
      allocCount (addEdge g r p "allocation").1 r = allocCount g r + 1 := by
  have h := addEdge_of_direction_ok g r p "allocation" nr np hr hp (Or.inr ⟨hrt, hpt, rfl⟩)
  refine ⟨h, ?_⟩
  rw [h]
  simp [allocCount, List.filter_append]

theorem addEdge_allocation_ignores_capacity_witness :
    addEdge capacityScenario "R1" "P2" "allocation" =
        ({ capacityScenario with
            edges := capacityScenario.edges ++ [⟨"R1", "P2", "allocation"⟩] },
          EdgeOutcome.added) ∧
      allocCount (addEdge capacityScenario "R1" "P2" "allocation").1 "R1" =
        allocCount capacityScenario "R1" + 1 :=
  addEdge_allocation_ignores_capacity capacityScenario "R1" "P2"
    ⟨"R1", NodeType.RESOURCE, 1⟩ ⟨"P2", NodeType.PROCESS, 1⟩
    (by decide) (by decide) rfl rfl

/-! ## `addNode`: overwriting -/

/-- C7, as stated, fails: `P1` names a Process with one instance; `addNode(P1, RESOURCE,
5)` changes the graph, and `P1` then names a Resource with five instances. -/
theorem addNode_existing_overwrites :
    singleProcess.nodes.find "P1" = some ⟨"P1", NodeType.PROCESS, 1⟩ ∧
      (addNode singleProcess "P1" NodeType.RESOURCE 5).nodes.find "P1" =
        some ⟨"P1", NodeType.RESOURCE, 5⟩ ∧
      addNode singleProcess "P1" NodeType.RESOURCE 5 ≠ singleProcess := by
  decide

/-- C7, amended: for every id that already names a node, `addNode(id, type, instances)`
overwrites that node with the new type and instance count; the set of ids present, their
order, every other node and the edge list are unchanged. -/
theorem addNode_existing_replaces (g : Graph) (id : String) (type : NodeType)
    (instances : Int) (old : Node) (h : g.nodes.find id = some old) :
    (addNode g id type instances).nodes.find id = some ⟨id, type, instances⟩ ∧
      (addNode g id type instances).nodes.keys = g.nodes.keys ∧
      (∀ k, k ≠ id → (addNode g id type instances).nodes.find k = g.nodes.find k) ∧
      (addNode g id type instances).edges = g.edges := by
  have hk : id ∈ g.nodes.keys := by
    by_contra hc
    rw [(NodeMap.find_eq_none_iff g.nodes id).2 hc] at h
    exact Option.noConfusion h
  exact ⟨NodeMap.find_assign_self _ _ _, NodeMap.keys_assign_of_mem _ _ _ hk,
    fun k hne => NodeMap.find_assign_ne _ _ _ _ hne, rfl⟩

theorem addNode_existing_replaces_witness :
    (addNode singleProcess "P1" NodeType.RESOURCE 5).nodes.find "P1" =
        some ⟨"P1", NodeType.RESOURCE, 5⟩ ∧
      (addNode singleProcess "P1" NodeType.RESOURCE 5).nodes.keys = singleProcess.nodes.keys ∧
      (∀ k, k ≠ "P1" →
        (addNode singleProcess "P1" NodeType.RESOURCE 5).nodes.find k =
          singleProcess.nodes.find k) ∧
      (addNode singleProcess "P1" NodeType.RESOURCE 5).edges = singleProcess.edges :=
  addNode_existing_replaces singleProcess "P1" NodeType.RESOURCE 5
    ⟨"P1", NodeType.PROCESS, 1⟩ (by decide)

/-! ## The direction rule as an invariant -/

theorem reachable_retypedScenario : Reachable retypedScenario :=
  .addNode _ _ _ (.addEdge _ _ _ (.addNode _ _ _ (.addNode _ _ _ .empty)))

/-- C8, as stated, fails: after `addNode(P1, PROCESS)`, `addNode(R1, RESOURCE)`,
`addEdge(P1, R1, "request")` and `addNode(P1, RESOURCE)` the stored request edge
`P1 -> R1` leaves a node whose current type is Resource. -/
theorem direction_invariant_broken_by_retyping :
    Reachable retypedScenario ∧
      (⟨"P1", "R1", "request"⟩ : Edge) ∈ retypedScenario.edges ∧
      retypedScenario.nodes.find "P1" = some ⟨"P1", NodeType.RESOURCE, 1⟩ ∧
      ¬ DirectionOK retypedScenario := by
  refine ⟨reachable_retypedScenario, by decide, by decide, ?_⟩
  intro h
  obtain ⟨f, t, hf, _, hft, _⟩ := (h ⟨"P1", "R1", "request"⟩ (by decide)).1 rfl
  have hf2 : retypedScenario.nodes.find "P1" = some ⟨"P1", NodeType.RESOURCE, 1⟩ := by decide
  rw [show (⟨"P1", "R1", "request"⟩ : Edge).«from» = "P1" from rfl, hf2] at hf
  cases hf
  exact NodeType.noConfusion hft

/-- C8, amended: in every graph built by a sequence of `addNode` and `addEdge` calls in
which no `addNode` call changes the type of an existing node, every stored "request"
edge goes from a node whose current type is Process to one whose current type is
Resource, and every stored "allocation" edge from a Resource to a Process. -/
theorem direction_invariant_without_retyping (g : Graph) (h : ReachableTypeStable g) :
    DirectionOK g := by
  induction h with
  | empty =>
    intro e he
    simp [Graph.empty] at he
  | @addNode g id type instances hstable _ ih =>
    have keep : ∀ k n, g.nodes.find k = some n →
        ∃ n1, (addNode g id type instances).nodes.find k = some n1 ∧ n1.type = n.type := by
      intro k n hk
      by_cases hkid : k = id
      · subst hkid
        exact ⟨_, NodeMap.find_assign_self _ _ _, (hstable n hk).symm⟩
      · refine ⟨n, ?_, rfl⟩
        simp only [addNode]
        rw [NodeMap.find_assign_ne _ _ _ _ hkid, hk]
    intro e he
    obtain ⟨h1, h2⟩ := ih e he
    constructor
    · intro hty
      obtain ⟨f, t, hf, ht, hft, htt⟩ := h1 hty
      obtain ⟨f1, hf1, hft1⟩ := keep _ _ hf
      obtain ⟨t1, ht1, htt1⟩ := keep _ _ ht
      exact ⟨f1, t1, hf1, ht1, hft1.trans hft, htt1.trans htt⟩
    · intro hty
      obtain ⟨f, t, hf, ht, hft, htt⟩ := h2 hty
      obtain ⟨f1, hf1, hft1⟩ := keep _ _ hf
      obtain ⟨t1, ht1, htt1⟩ := keep _ _ ht
      exact ⟨f1, t1, hf1, ht1, hft1.trans hft, htt1.trans htt⟩
  | @addEdge g a b type _ ih =>
    rcases addEdge_cases g a b type with ⟨h, _⟩ | ⟨h, _⟩ | ⟨h, f, t, hf, ht, hok⟩
    · rw [h]; exact ih
    · rw [h]; exact ih
    · rw [h]
      intro e he
      simp only [List.mem_append, List.mem_singleton] at he
      rcases he with he | rfl
      · exact ih e he
      · constructor
        · intro hty
          rcases hok with ⟨hft, htt, _⟩ | ⟨_, _, hal⟩
          · exact ⟨f, t, hf, ht, hft, htt⟩
          · simp only at hty
            rw [hty] at hal
            exact absurd hal (by decide)
        · intro hty
          rcases hok with ⟨_, _, hrq⟩ | ⟨hft, htt, _⟩
          · simp only at hty
            rw [hty] at hrq
            exact absurd hrq (by decide)
          · exact ⟨f, t, hf, ht, hft, htt⟩

theorem direction_invariant_without_retyping_witness :
    ReachableTypeStable requestScenario ∧ DirectionOK requestScenario :=
  ⟨typeStable_requestScenario,
    direction_invariant_without_retyping requestScenario typeStable_requestScenario⟩

/-! ## Duplicate edges -/

theorem reachable_duplicateScenario : Reachable duplicateScenario :=
  .addEdge _ _ _ reachable_requestScenario

/-- C9, as stated, fails: issuing the valid call `addEdge(P1, R1, "request")` twice
leaves two equal edges in the edge list. -/
theorem duplicate_edge_stored :
    Reachable duplicateScenario ∧
      duplicateScenario.edges = [⟨"P1", "R1", "request"⟩, ⟨"P1", "R1", "request"⟩] ∧
      duplicateScenario.edges.count ⟨"P1", "R1", "request"⟩ = 2 ∧
      ¬ duplicateScenario.edges.Nodup :=
  ⟨reachable_duplicateScenario, by decide, by decide, by decide⟩

/-- C9, amended: `addEdge` does not look for an existing equal edge. When a call
`addEdge(from, to, type)` adds its edge, issuing the same call again adds it once more:
the edge list then ends in two equal edges, and the number of stored copies of that edge
is two more than before the first call. -/
theorem addEdge_twice_appends_twice (g : Graph) («from» «to» type : String)
    (h : (addEdge g «from» «to» type).2 = EdgeOutcome.added) :
    addEdge (addEdge g «from» «to» type).1 «from» «to» type =
        ({ g with edges := g.edges ++ [⟨«from», «to», type⟩, ⟨«from», «to», type⟩] },
          EdgeOutcome.added) ∧
      (addEdge (addEdge g «from» «to» type).1 «from» «to» type).1.edges.count
          ⟨«from», «to», type⟩ = g.edges.count ⟨«from», «to», type⟩ + 2 := by
  rcases addEdge_cases g «from» «to» type with ⟨h1, _⟩ | ⟨h1, _⟩ | ⟨h1, f, t, hf, ht, hok⟩
  · rw [h1] at h; exact EdgeOutcome.noConfusion h
  · rw [h1] at h; exact EdgeOutcome.noConfusion h
  · have h2 := addEdge_of_direction_ok
      { g with edges := g.edges ++ [⟨«from», «to», type⟩] } «from» «to» type f t hf ht hok
    rw [h1]
    simp only at h2 ⊢
    rw [h2]
    simp [List.count_append]

theorem addEdge_twice_appends_twice_witness :
    addEdge (addEdge requestScenario "R1" "P1" "allocation").1 "R1" "P1" "allocation" =
        ({ requestScenario with
            edges := requestScenario.edges ++
              [⟨"R1", "P1", "allocation"⟩, ⟨"R1", "P1", "allocation"⟩] },
          EdgeOutcome.added) ∧
      (addEdge (addEdge requestScenario "R1" "P1" "allocation").1
          "R1" "P1" "allocation").1.edges.count ⟨"R1", "P1", "allocation"⟩ =
        requestScenario.edges.count ⟨"R1", "P1", "allocation"⟩ + 2 :=
  addEdge_twice_appends_twice requestScenario "R1" "P1" "allocation" (by decide)

/-! ## Instance counts -/

/-- C10, as stated, fails: `addNode(R1, RESOURCE, 0)` on the empty graph changes the
graph, and the reachable result holds a Resource whose instance count is not
positive. -/
theorem zero_instance_resource_accepted :
    Reachable zeroInstanceScenario ∧
      zeroInstanceScenario ≠ Graph.empty ∧
      zeroInstanceScenario.nodes.find "R1" = some ⟨"R1", NodeType.RESOURCE, 0⟩ ∧
      ¬ (∀ k n, zeroInstanceScenario.nodes.find k = some n → n.type = NodeType.RESOURCE →
          0 < n.instances) :=
  ⟨.addNode _ _ _ .empty, by decide, by decide,
    fun h => absurd (h "R1" ⟨"R1", NodeType.RESOURCE, 0⟩ (by decide) rfl) (by decide)⟩

theorem NodeMap.mem_assign {m : NodeMap} {k : String} {v : Node} {p : String × Node}
    (h : p ∈ m.assign k v) : p.2 = v ∨ p ∈ m := by
  induction m with
  | nil =>
    simp only [NodeMap.assign, List.mem_singleton] at h
    exact Or.inl (by rw [h])
  | cons q rest ih =>
    obtain ⟨k1, v1⟩ := q
    by_cases hk : k1 = k
    · simp only [NodeMap.assign, if_pos hk, List.mem_cons] at h
      rcases h with h | h
      · exact Or.inl (by rw [h])
      · exact Or.inr (List.mem_cons_of_mem _ h)
    · simp only [NodeMap.assign, if_neg hk, List.mem_cons] at h
      rcases h with h | h
      · exact Or.inr (h ▸ List.mem_cons_self _ _)
      · rcases ih h with h1 | h1
        · exact Or.inl h1
        · exact Or.inr (List.mem_cons_of_mem _ h1)

theorem ReachablePositive.instances_pos {g : Graph} (h : ReachablePositive g) :
    ∀ p ∈ g.nodes, p.2.type = NodeType.RESOURCE → 0 < p.2.instances := by
  induction h with
  | empty =>
    intro p hp
    simp [Graph.empty] at hp
  | @addNode g id type instances hpos _ ih =>
    intro p hp hty
    rcases NodeMap.mem_assign hp with h1 | h1
    · rw [h1] at hty ⊢
      exact hpos hty
    · exact ih p h1 hty
  | @addEdge g a b type _ ih =>
    rcases addEdge_cases g a b type with ⟨h, _⟩ | ⟨h, _⟩ | ⟨h, _⟩
    · rw [h]; exact ih
    · rw [h]; exact ih
    · rw [h]; exact ih

/-- C10, amended: `addNode` does not inspect `instances`. For every graph and id,
`addNode(id, RESOURCE, instances)` with `instances <= 0` stores a Resource node under
`id` carrying exactly that instance count, leaving every other node and the edge list
unchanged; and every resource node has a positive instance count in those graphs that
are built by call sequences adding each Resource with a positive count. -/
theorem addNode_nonpositive_instances_stored (g : Graph) (id : String) (instances : Int)
    (h : instances ≤ 0) :
    (addNode g id NodeType.RESOURCE instances).nodes.find id =
        some ⟨id, NodeType.RESOURCE, instances⟩ ∧
      (∃ n, (addNode g id NodeType.RESOURCE instances).nodes.find id = some n ∧
        n.type = NodeType.RESOURCE ∧ n.instances ≤ 0) ∧
      (∀ k, k ≠ id →
        (addNode g id NodeType.RESOURCE instances).nodes.find k = g.nodes.find k) ∧
      (addNode g id NodeType.RESOURCE instances).edges = g.edges ∧
      (ReachablePositive g →
        ∀ p ∈ g.nodes, p.2.type = NodeType.RESOURCE → 0 < p.2.instances) :=
  ⟨NodeMap.find_assign_self _ _ _,
    ⟨_, NodeMap.find_assign_self _ _ _, rfl, h⟩,
    fun _ hne => NodeMap.find_assign_ne _ _ _ _ hne, rfl,
    fun hg => hg.instances_pos⟩

theorem addNode_nonpositive_instances_stored_witness :
    (addNode requestScenario "R1" NodeType.RESOURCE (-3)).nodes.find "R1" =
        some ⟨"R1", NodeType.RESOURCE, -3⟩ ∧
      (∃ n, (addNode requestScenario "R1" NodeType.RESOURCE (-3)).nodes.find "R1" = some n ∧
        n.type = NodeType.RESOURCE ∧ n.instances ≤ 0) ∧
      (∀ k, k ≠ "R1" →
        (addNode requestScenario "R1" NodeType.RESOURCE (-3)).nodes.find k =
          requestScenario.nodes.find k) ∧
      (addNode requestScenario "R1" NodeType.RESOURCE (-3)).edges = requestScenario.edges ∧
      (∀ p ∈ requestScenario.nodes, p.2.type = NodeType.RESOURCE → 0 < p.2.instances) := by
  obtain ⟨h1, h2, h3, h4, h5⟩ :=
    addNode_nonpositive_instances_stored requestScenario "R1" (-3) (by decide)
  exact ⟨h1, h2, h3, h4, h5 positive_requestScenario⟩

/-! ## The adjacency list -/

theorem mem_foldl_pushBack (edges : List Edge) (adj0 : AdjMap) (a b : String) :
    b ∈ (edges.foldl (fun adj e => adj.pushBack e.«from» e.«to») adj0) a ↔
      b ∈ adj0 a ∨ ∃ e ∈ edges, e.«from» = a ∧ e.«to» = b := by
  induction edges generalizing adj0 with
  | nil => simp
  | cons e rest ih =>
    rw [List.foldl_cons, ih]
    by_cases h : a = e.«from»
    · subst h
      simp only [AdjMap.pushBack, if_true, List.mem_append, List.mem_singleton, List.mem_cons,
        exists_eq_or_imp, true_and, List.not_mem_nil, or_false]
      constructor
      · rintro ((h | h) | h)
        · exact Or.inl h
        · exact Or.inr (Or.inl h.symm)
        · exact Or.inr (Or.inr h)
      · rintro (h | h | h)
        · exact Or.inl (Or.inl h)
        · exact Or.inl (Or.inr h.symm)
        · exact Or.inr h
    · have h2 : ¬ e.«from» = a := fun x => h x.symm
      simp [AdjMap.pushBack, h, h2]

theorem mem_buildAdj (edges : List Edge) (a b : String) :
    b ∈ buildAdj edges a ↔ ∃ e ∈ edges, e.«from» = a ∧ e.«to» = b := by
  unfold buildAdj
  rw [mem_foldl_pushBack]
  simp

theorem adjRel_buildAdj (g : Graph) : AdjRel (buildAdj g.edges) = HasEdge g := by
  funext a b
  exact propext (mem_buildAdj g.edges a b)

/-! ## Cycles as closed walks -/

theorem hasCycle_iff_transGen (g : Graph) :
    HasCycle g ↔ ∃ x, Relation.TransGen (HasEdge g) x x := by
  constructor
  · rintro ⟨c, hne, hchain, hback⟩
    cases c with
    | nil => exact absurd rfl hne
    | cons a l =>
      refine ⟨a, ?_⟩
      have h1 : Relation.ReflTransGen (HasEdge g) a ((a :: l).getLast hne) :=
        List.relationReflTransGen_of_exists_chain l hchain rfl
      exact Relation.TransGen.tail' h1 hback
  · rintro ⟨x, hx⟩
    obtain ⟨b, hxb, hbx⟩ := Relation.TransGen.tail'_iff.1 hx
    obtain ⟨l, hl, hlast⟩ := List.exists_chain_of_relationReflTransGen hxb
    refine ⟨x :: l, List.cons_ne_nil _ _, hl, ?_⟩
    rw [hlast]
    exact hbx


/-! ## Correctness of `dfs` -/

theorem FinishedClosed.reach {adj : AdjMap} {s : DfsState} (h : FinishedClosed adj s)
    {x y : String} (hx : Finished s x) (hxy : Relation.ReflTransGen (AdjRel adj) x y) :
    Finished s y := by
  induction hxy with
  | refl => exact hx
  | tail _ hbc ih => exact (h _ ih).1 _ hbc

theorem unvisited_card_le (U : Finset String) {s s1 : DfsState}
    (hmono : ∀ x, s.visited x = true → s1.visited x = true) :
    (unvisited U s1).card ≤ (unvisited U s).card := by
  apply Finset.card_le_card
  intro x hx
  simp only [unvisited, Finset.mem_filter] at hx ⊢
  refine ⟨hx.1, ?_⟩
  by_contra hc
  have := hmono x (by simpa using hc)
  rw [hx.2] at this
  exact Bool.noConfusion this

theorem unvisited_card_lt (U : Finset String) {s s1 : DfsState} {node : String}
    (hU : node ∈ U) (hnode : s.visited node = false) (hnode1 : s1.visited node = true)
    (hmono : ∀ x, s.visited x = true → s1.visited x = true) :
    (unvisited U s1).card < (unvisited U s).card := by
  apply Finset.card_lt_card
  rw [Finset.ssubset_iff_of_subset]
  · refine ⟨node, ?_, ?_⟩
    · simp [unvisited, hU, hnode]
    · simp [unvisited, hnode1]
  · intro x hx
    simp only [unvisited, Finset.mem_filter] at hx ⊢
    refine ⟨hx.1, ?_⟩
    by_contra hc
    have := hmono x (by simpa using hc)
    rw [hx.2] at this
    exact Bool.noConfusion this

theorem FramePost.refl (adj : AdjMap) (s : DfsState) (h : FinishedClosed adj s) :
    FramePost adj s s :=
  ⟨fun _ hx => hx, fun _ => rfl, h, rfl⟩

theorem FramePost.trans {adj : AdjMap} {s s1 s2 : DfsState}
    (h1 : FramePost adj s s1) (h2 : FramePost adj s1 s2) : FramePost adj s s2 :=
  ⟨fun x hx => h2.1 x (h1.1 x hx), fun x => (h2.2.1 x).trans (h1.2.1 x), h2.2.2.1,
    h2.2.2.2.trans h1.2.2.2⟩

theorem FramePost.finished {adj : AdjMap} {s s1 : DfsState} (h : FramePost adj s s1)
    {x : String} (hx : Finished s x) : Finished s1 x :=
  ⟨h.1 x hx.1, (h.2.1 x).trans hx.2⟩

theorem FramePost.stackVisited {adj : AdjMap} {s s1 : DfsState} (h : FramePost adj s s1)
    (hs : StackVisited s) : StackVisited s1 :=
  fun x hx => h.1 x (hs x ((h.2.1 x).symm.trans hx))


theorem dfsLoop_spec (adj : AdjMap) (U : Finset String) (hU : ∀ a, ∀ b ∈ adj a, b ∈ U)
    (fuel : Nat) (recurse : String → DfsState → Option (Bool × DfsState))
    (ih : DfsContract adj U fuel recurse) (node : String) :
    ∀ (nbrs : List String) (s : DfsState), (∀ nb ∈ nbrs, nb ∈ adj node) →
      (unvisited U s).card < fuel → StackVisited s → s.recStack node = true →
      (∀ x, s.recStack x = true → Relation.ReflTransGen (AdjRel adj) x node) →
      FinishedClosed adj s →
      ∃ b s1, dfsLoop recurse nbrs s = some (b, s1) ∧
        (b = true → ∃ x, Relation.TransGen (AdjRel adj) x x) ∧
        (b = false → FramePost adj s s1 ∧ ∀ nb ∈ nbrs, Finished s1 nb) := by
  intro nbrs
  induction nbrs with
  | nil =>
    intro s _ _ _ _ _ hinv
    exact ⟨false, s, rfl, fun h => Bool.noConfusion h,
      fun _ => ⟨FramePost.refl adj s hinv, fun nb hnb => absurd hnb (List.not_mem_nil nb)⟩⟩
  | cons nb rest ihl =>
    intro s hnbrs hcard hsv hnode hreach hinv
    have hedge : nb ∈ adj node := hnbrs nb (List.mem_cons_self _ _)
    have hrest : ∀ x ∈ rest, x ∈ adj node := fun x hx => hnbrs x (List.mem_cons_of_mem _ hx)
    by_cases hv : s.visited nb = false
    · -- the neighbour is unvisited: the recursive call is made
      have hrnb : s.recStack nb = false := by
        cases hr : s.recStack nb with
        | false => rfl
        | true => rw [hsv nb hr] at hv; exact Bool.noConfusion hv
      obtain ⟨b, s1, hrec, htrue, hfalse⟩ := ih nb s (hU node nb hedge) hcard hsv hrnb
        (fun x hx => Relation.ReflTransGen.tail (hreach x hx) hedge) hinv
      cases b with
      | true =>
        refine ⟨true, s1, ?_, fun _ => htrue rfl, fun h => Bool.noConfusion h⟩
        simp [dfsLoop, hv, hrec]
      | false =>
        obtain ⟨hframe, hvis⟩ := hfalse rfl
        have hr1 : s1.recStack nb = false := (hframe.2.1 nb).trans hrnb
        obtain ⟨b2, s2, hloop, htrue2, hfalse2⟩ := ihl s1 hrest
          (lt_of_le_of_lt (unvisited_card_le U hframe.1) hcard)
          (hframe.stackVisited hsv) ((hframe.2.1 node).trans hnode)
          (fun x hx => hreach x ((hframe.2.1 x).symm.trans hx)) hframe.2.2.1
        refine ⟨b2, s2, ?_, htrue2, fun hb => ?_⟩
        · simp [dfsLoop, hv, hrec, hr1, hloop]
        · obtain ⟨hframe2, hfin⟩ := hfalse2 hb
          refine ⟨hframe.trans hframe2, fun x hx => ?_⟩
          rcases List.mem_cons.1 hx with rfl | hx
          · exact hframe2.finished ⟨hvis, hr1⟩
          · exact hfin x hx
    · -- the neighbour was visited before
      have hv1 : s.visited nb = true := by simpa using hv
      by_cases hr : s.recStack nb = true
      · refine ⟨true, { s with path := eraseBefore s.path nb }, ?_, fun _ => ?_,
          fun h => Bool.noConfusion h⟩
        · simp [dfsLoop, hv1, hr]
        · exact ⟨nb, Relation.TransGen.tail' (hreach nb hr) hedge⟩
      · have hr0 : s.recStack nb = false := by simpa using hr
        obtain ⟨b2, s2, hloop, htrue2, hfalse2⟩ := ihl s hrest hcard hsv hnode hreach hinv
        refine ⟨b2, s2, ?_, htrue2, fun hb => ?_⟩
        · simp [dfsLoop, hv1, hr0, hloop]
        · obtain ⟨hframe2, hfin⟩ := hfalse2 hb
          refine ⟨hframe2, fun x hx => ?_⟩
          rcases List.mem_cons.1 hx with rfl | hx
          · exact hframe2.finished ⟨hv1, hr0⟩
          · exact hfin x hx


theorem dfs_spec (adj : AdjMap) (U : Finset String) (hU : ∀ a, ∀ b ∈ adj a, b ∈ U) :
    ∀ fuel, DfsContract adj U fuel (dfs adj fuel) := by
  intro fuel
  induction fuel with
  | zero =>
    intro node s _ hcard
    exact absurd hcard (Nat.not_lt_zero _)
  | succ fuel ih =>
    intro node s hnodeU hcard hsv hrnode hreach hinv
    by_cases hv : s.visited node = false
    · -- first visit: mark, push, run the loop over the neighbours
      have hfin_iff : ∀ x, x ≠ node → s.visited.set node true x = s.visited x ∧
          s.recStack.set node true x = s.recStack x := by
        intro x hx
        simp [BoolMap.set, hx]
      have hmono1 : ∀ x, s.visited x = true → s.visited.set node true x = true := by
        intro x hx
        by_cases hxn : x = node
        · simp [BoolMap.set, hxn]
        · rw [(hfin_iff x hxn).1]; exact hx
      obtain ⟨b, s2, hloop, htrue, hfalse⟩ := dfsLoop_spec adj U hU fuel (dfs adj fuel) ih node
        (adj node)
        { visited := s.visited.set node true
          recStack := s.recStack.set node true
          path := s.path ++ [node] }
        (fun _ h => h)
        (Nat.lt_of_lt_of_le
          (unvisited_card_lt U hnodeU hv (by simp [BoolMap.set]) hmono1)
          (Nat.le_of_lt_succ hcard))
        (by
          intro x hx
          dsimp only at hx ⊢
          by_cases hxn : x = node
          · simp [BoolMap.set, hxn]
          · rw [(hfin_iff x hxn).1]
            rw [(hfin_iff x hxn).2] at hx
            exact hsv x hx)
        (by simp [BoolMap.set])
        (by
          intro x hx
          dsimp only at hx
          by_cases hxn : x = node
          · rw [hxn]
          · rw [(hfin_iff x hxn).2] at hx
            exact hreach x hx)
        (by
          intro x hx
          have hxn : x ≠ node := by
            rintro rfl
            have := hx.2
            simp [BoolMap.set] at this
          have hx0 : Finished s x := by
            obtain ⟨h1, h2⟩ := hx
            dsimp only at h1 h2
            rw [(hfin_iff x hxn).1] at h1
            rw [(hfin_iff x hxn).2] at h2
            exact ⟨h1, h2⟩
          refine ⟨fun y hy => ?_, (hinv x hx0).2⟩
          have hy0 := (hinv x hx0).1 y hy
          have hyn : y ≠ node := by
            rintro rfl
            rw [hy0.1] at hv
            exact Bool.noConfusion hv
          exact ⟨(hfin_iff y hyn).1.trans hy0.1, (hfin_iff y hyn).2.trans hy0.2⟩)
      cases b with
      | true =>
        refine ⟨true, s2, ?_, fun _ => htrue rfl, fun h => Bool.noConfusion h⟩
        simp [dfs, hv, hloop]
      | false =>
        obtain ⟨⟨hmono, hstack, hinv2, hpath⟩, hnbrs⟩ := hfalse rfl
        have hv2 : s2.visited node = true := hmono node (by simp [BoolMap.set])
        have hr2 : s2.recStack node = true := by
          rw [hstack node]; simp [BoolMap.set]
        refine ⟨false, { s2 with path := s2.path.dropLast
                                 recStack := s2.recStack.set node false }, ?_,
          fun h => Bool.noConfusion h, fun _ => ⟨⟨?_, ?_, ?_, ?_⟩, hv2⟩⟩
        · simp [dfs, hv, hloop]
        · exact fun x hx => hmono x (hmono1 x hx)
        · intro x
          by_cases hxn : x = node
          · simp [BoolMap.set, hxn, hrnode]
          · have := hstack x
            simp only at this
            simp only [BoolMap.set, if_neg hxn] at this ⊢
            exact this
        · intro x hx
          by_cases hxn : x = node
          · subst hxn
            constructor
            · intro y hy
              have hy2 := hnbrs y hy
              refine ⟨hy2.1, ?_⟩
              by_cases hyn : y = x
              · simp [BoolMap.set, hyn]
              · simp only [BoolMap.set, if_neg hyn]
                exact hy2.2
            · intro hcyc
              obtain ⟨y, hxy, hyx⟩ := Relation.TransGen.head'_iff.1 hcyc
              have := (hinv2.reach (hnbrs y hxy) hyx).2
              rw [hr2] at this
              exact Bool.noConfusion this
          · have hx2 : Finished s2 x := by
              refine ⟨hx.1, ?_⟩
              have := hx.2
              simp only [BoolMap.set, if_neg hxn] at this
              exact this
            refine ⟨fun y hy => ?_, (hinv2 x hx2).2⟩
            have hy2 := (hinv2 x hx2).1 y hy
            refine ⟨hy2.1, ?_⟩
            by_cases hyn : y = node
            · simp [BoolMap.set, hyn]
            · simp only [BoolMap.set, if_neg hyn]
              exact hy2.2
        · simp only at hpath ⊢
          rw [hpath, List.dropLast_concat]
    · -- already visited: only `recStack[node] = false` is executed
      have hv1 : s.visited node = true := by simpa using hv
      have hsame : ∀ x, s.recStack.set node false x = s.recStack x := by
        intro x
        by_cases hxn : x = node
        · simp [BoolMap.set, hxn, hrnode]
        · simp [BoolMap.set, hxn]
      refine ⟨false, { s with recStack := s.recStack.set node false }, ?_,
        fun h => Bool.noConfusion h, fun _ => ⟨⟨fun _ hx => hx, hsame, ?_, rfl⟩, hv1⟩⟩
      · simp [dfs, hv1]
      · intro x hx
        have hx0 : Finished s x := ⟨hx.1, (hsame x).symm.trans hx.2⟩
        refine ⟨fun y hy => ?_, (hinv x hx0).2⟩
        have hy0 := (hinv x hx0).1 y hy
        exact ⟨hy0.1, (hsame y).trans hy0.2⟩


theorem detectLoop_spec (adj : AdjMap) (U : Finset String) (hU : ∀ a, ∀ b ∈ adj a, b ∈ U)
    (fuel : Nat) :
    ∀ (ks : List String) (s : DfsState), (∀ k ∈ ks, k ∈ U) →
      (unvisited U s).card < fuel → (∀ x, s.recStack x = false) → FinishedClosed adj s →
      ∃ r, detectLoop adj fuel ks s = some r ∧
        (r.deadlocked = true → ∃ x, Relation.TransGen (AdjRel adj) x x) ∧
        (r.deadlocked = false →
          ∃ s1, FramePost adj s s1 ∧ ∀ k ∈ ks, s1.visited k = true) := by
  intro ks
  induction ks with
  | nil =>
    intro s _ _ _ hinv
    exact ⟨⟨false, s.path⟩, rfl, fun h => Bool.noConfusion h,
      fun _ => ⟨s, FramePost.refl adj s hinv, fun k hk => absurd hk (List.not_mem_nil k)⟩⟩
  | cons k ks ih =>
    intro s hks hcard hstack hinv
    obtain ⟨b, s1, hdfs, htrue, hfalse⟩ := dfs_spec adj U hU fuel k s
      (hks k (List.mem_cons_self _ _)) hcard
      (fun x hx => by rw [hstack x] at hx; exact Bool.noConfusion hx) (hstack k)
      (fun x hx => by rw [hstack x] at hx; exact Bool.noConfusion hx) hinv
    cases b with
    | true =>
      refine ⟨⟨true, s1.path⟩, ?_, fun _ => htrue rfl, fun h => Bool.noConfusion h⟩
      simp [detectLoop, hdfs]
    | false =>
      obtain ⟨hframe, hvis⟩ := hfalse rfl
      obtain ⟨r, hloop, htrue2, hfalse2⟩ := ih s1
        (fun x hx => hks x (List.mem_cons_of_mem _ hx))
        (lt_of_le_of_lt (unvisited_card_le U hframe.1) hcard)
        (fun x => (hframe.2.1 x).trans (hstack x)) hframe.2.2.1
      refine ⟨r, ?_, htrue2, fun hr => ?_⟩
      · simp [detectLoop, hdfs, hloop]
      · obtain ⟨s2, hframe2, hall⟩ := hfalse2 hr
        refine ⟨s2, hframe.trans hframe2, fun x hx => ?_⟩
        rcases List.mem_cons.1 hx with rfl | hx
        · exact hframe2.1 _ hvis
        · exact hall x hx

/-- For every graph whose edges all start at an enumerated key, `detectDeadlockOrd`
returns, and it returns `true` exactly when the stored edges contain a directed cycle. -/
theorem detectDeadlockOrd_spec (g : Graph) (order : List String)
    (hfrom : ∀ e ∈ g.edges, e.«from» ∈ order) :
    ∃ r, detectDeadlockOrd g order = some r ∧ (r.deadlocked = true ↔ HasCycle g) := by
  have hU : ∀ a, ∀ b ∈ buildAdj g.edges a,
      b ∈ (order ++ g.edges.map fun e => e.«to»).toFinset := by
    intro a b hb
    obtain ⟨e, he, _, rfl⟩ := (mem_buildAdj g.edges a b).1 hb
    simp only [List.mem_toFinset, List.mem_append, List.mem_map]
    exact Or.inr ⟨e, he, rfl⟩
  have hcard : (unvisited (order ++ g.edges.map fun e => e.«to»).toFinset
      { visited := fun _ => false, recStack := fun _ => false, path := [] }).card <
        dfsFuel order g.edges := by
    refine lt_of_le_of_lt (Finset.card_le_card (Finset.filter_subset _ _)) ?_
    refine lt_of_le_of_lt (List.toFinset_card_le _) ?_
    simp [dfsFuel]
  obtain ⟨r, hr, htrue, hfalse⟩ := detectLoop_spec (buildAdj g.edges) _ hU
    (dfsFuel order g.edges) order
    { visited := fun _ => false, recStack := fun _ => false, path := [] }
    (fun k hk => by simp [hk]) hcard (fun _ => rfl)
    (fun x hx => Bool.noConfusion hx.1)
  refine ⟨r, hr, ?_⟩
  rw [hasCycle_iff_transGen, ← adjRel_buildAdj]
  refine ⟨htrue, fun hcyc => ?_⟩
  cases hd : r.deadlocked with
  | true => rfl
  | false =>
    exfalso
    obtain ⟨s1, hframe, hall⟩ := hfalse hd
    obtain ⟨x, hx⟩ := hcyc
    obtain ⟨y, hxy, _⟩ := Relation.TransGen.head'_iff.1 hx
    obtain ⟨e, he, rfl, _⟩ := (mem_buildAdj g.edges x y).1 hxy
    exact (hframe.2.2.1 _ ⟨hall _ (hfrom e he), hframe.2.1 _⟩).2 hx

/-! ## Edges of reachable graphs join existing nodes -/

theorem NodeMap.mem_keys_of_find {m : NodeMap} {k : String} {n : Node}
    (h : m.find k = some n) : k ∈ m.keys := by
  by_contra hc
  rw [(NodeMap.find_eq_none_iff m k).2 hc] at h
  exact Option.noConfusion h

theorem Reachable.edge_endpoints {g : Graph} (h : Reachable g) :
    ∀ e ∈ g.edges, e.«from» ∈ g.nodes.keys ∧ e.«to» ∈ g.nodes.keys := by
  induction h with
  | empty =>
    intro e he
    simp [Graph.empty] at he
  | @addNode g id type instances _ ih =>
    intro e he
    obtain ⟨h1, h2⟩ := ih e he
    exact ⟨(NodeMap.mem_keys_assign _ _ _ _).2 (Or.inr h1),
      (NodeMap.mem_keys_assign _ _ _ _).2 (Or.inr h2)⟩
  | @addEdge g a b type _ ih =>
    rcases addEdge_cases g a b type with ⟨h, _⟩ | ⟨h, _⟩ | ⟨h, f, t, hf, ht, _⟩
    · rw [h]; exact ih
    · rw [h]; exact ih
    · rw [h]
      intro e he
      simp only [List.mem_append, List.mem_singleton] at he
      rcases he with he | rfl
      · exact ih e he
      · exact ⟨NodeMap.mem_keys_of_find hf, NodeMap.mem_keys_of_find ht⟩

/-! ## Deadlock detection is cycle detection -/

/-- C1: for every graph built by `addNode`/`addEdge` in which every resource has
`instances == 1`, and for every order in which the node map may be enumerated (the
stored order `g.nodes.keys` of `detectDeadlock` among them), `detectDeadlock` returns,
and it returns `true` if and only if the stored edges contain a directed cycle. -/
theorem detectDeadlock_true_iff_cycle (g : Graph) (hreach : Reachable g)
    (_hsingle : ∀ p ∈ g.nodes, p.2.type = NodeType.RESOURCE → p.2.instances = 1)
    (order : List String) (horder : order.Perm g.nodes.keys) :
    ∃ r, detectDeadlockOrd g order = some r ∧ (r.deadlocked = true ↔ HasCycle g) :=
  detectDeadlockOrd_spec g order
    fun e he => horder.mem_iff.2 (hreach.edge_endpoints e he).1

theorem detectDeadlock_true_iff_cycle_witness :
    ∃ r, detectDeadlockOrd classicScenario classicScenario.nodes.keys = some r ∧
      (r.deadlocked = true ↔ HasCycle classicScenario) :=
  detectDeadlock_true_iff_cycle classicScenario reachable_classicScenario (by decide)
    classicScenario.nodes.keys (List.Perm.refl _)


/-! ## The two scenarios of `main`, under every enumeration order -/

theorem classicScenario_all_orders :
    ∀ order ∈ classicScenario.nodes.keys.permutations',
      ∃ cyc ∈ [["P1", "R1", "P2", "R2"], ["R1", "P2", "R2", "P1"],
          ["P2", "R2", "P1", "R1"], ["R2", "P1", "R1", "P2"]],
        detectDeadlockOrd classicScenario order = some ⟨true, cyc⟩ ∧
          cyc.head? = order.head? ∧
          (order.head? = some "P1" → cyc = ["P1", "R1", "P2", "R2"]) := by
  decide

theorem multiInstanceScenario_all_orders :
    ∀ order ∈ multiInstanceScenario.nodes.keys.permutations',
      ∃ cyc ∈ [["P1", "R1"], ["R1", "P1"]],
        detectDeadlockOrd multiInstanceScenario order = some ⟨true, cyc⟩ := by
  decide

/-- C2, as stated, fails: enumerating the nodes in insertion order, the classic scenario
yields `true` with the cycle vector `[P1, R1, P2, R2]`; neither this order nor any other
enumeration order yields `[P1, R1, P2, R2, P1]`, because `dfs` never appends the start
node a second time. -/
theorem classic_cycle_lacks_closing_node :
    detectDeadlock classicScenario = some ⟨true, ["P1", "R1", "P2", "R2"]⟩ ∧
      detectDeadlock classicScenario ≠ some ⟨true, ["P1", "R1", "P2", "R2", "P1"]⟩ ∧
      (classicScenario.nodes.keys.permutations'.all fun order =>
        decide (detectDeadlockOrd classicScenario order ≠
          some ⟨true, ["P1", "R1", "P2", "R2", "P1"]⟩)) = true := by
  decide

/-- C2, amended: for the classic scenario `detectDeadlock` reports `deadlocked == true`
under every enumeration order of the node map, and the reported cycle lists the four
nodes of the loop once each, beginning with the first enumerated node and without
repeating it at the end; it is exactly `[P1, R1, P2, R2]` whenever the enumeration
begins with `P1`, as the insertion order does. -/
theorem classic_deadlock_reported (order : List String)
    (h : order.Perm classicScenario.nodes.keys) :
    ∃ cyc ∈ [["P1", "R1", "P2", "R2"], ["R1", "P2", "R2", "P1"],
        ["P2", "R2", "P1", "R1"], ["R2", "P1", "R1", "P2"]],
      detectDeadlockOrd classicScenario order = some ⟨true, cyc⟩ ∧
        cyc.head? = order.head? ∧
        (order.head? = some "P1" → cyc = ["P1", "R1", "P2", "R2"]) :=
  classicScenario_all_orders order (List.mem_permutations'.2 h)

theorem classic_deadlock_reported_witness :
    ∃ cyc ∈ [["P1", "R1", "P2", "R2"], ["R1", "P2", "R2", "P1"],
        ["P2", "R2", "P1", "R1"], ["R2", "P1", "R1", "P2"]],
      detectDeadlockOrd classicScenario ["P1", "P2", "R1", "R2"] = some ⟨true, cyc⟩ ∧
        cyc.head? = ["P1", "P2", "R1", "R2"].head? ∧
        (["P1", "P2", "R1", "R2"].head? = some "P1" → cyc = ["P1", "R1", "P2", "R2"]) :=
  classic_deadlock_reported ["P1", "P2", "R1", "R2"] (List.Perm.refl _)

/-- C3: the code at the scenario that `main` announces as deadlock-free. Under every
enumeration order of the node map `detectDeadlock` returns `true`, reporting the walk
between `P1` and `R1`, although `R1` has two instances and no process is left waiting. -/
theorem multiInstance_reported_deadlocked (order : List String)
    (h : order.Perm multiInstanceScenario.nodes.keys) :
    ∃ cyc ∈ [["P1", "R1"], ["R1", "P1"]],
      detectDeadlockOrd multiInstanceScenario order = some ⟨true, cyc⟩ :=
  multiInstanceScenario_all_orders order (List.mem_permutations'.2 h)

theorem multiInstance_reported_deadlocked_witness :
    ∃ cyc ∈ [["P1", "R1"], ["R1", "P1"]],
      detectDeadlockOrd multiInstanceScenario ["P1", "P2", "R1"] = some ⟨true, cyc⟩ :=
  multiInstance_reported_deadlocked ["P1", "P2", "R1"] (List.Perm.refl _)


theorem NodeMap.assign_of_find_none (m : NodeMap) (k : String) (v : Node)
    (h : m.find k = none) : m.assign k v = m ++ [(k, v)] := by
  induction m with
  | nil => rfl
  | cons p rest ih =>
    obtain ⟨k1, v1⟩ := p
    by_cases hk : k1 = k
    · simp [NodeMap.find, hk] at h
    · simp only [NodeMap.find, if_neg hk] at h
      simp [NodeMap.assign, hk, ih h]

/-! ## `addEdge` and `addNode`: the successful calls -/

/-- C11: when `from` and `to` both exist and the direction rule holds (Process to
Resource with "request", or Resource to Process with "allocation"), `addEdge` takes its
"edge added" branch: the new edge list is the old one with exactly the one edge
`(from, to, type)` appended at the end, and the node map is unchanged. -/
theorem addEdge_valid_appends_one (g : Graph) («from» «to» type : String) (f t : Node)
    (hf : g.nodes.find «from» = some f) (ht : g.nodes.find «to» = some t)
    (hok : (f.type = NodeType.PROCESS ∧ t.type = NodeType.RESOURCE ∧ type = "request") ∨
      (f.type = NodeType.RESOURCE ∧ t.type = NodeType.PROCESS ∧ type = "allocation")) :
    (addEdge g «from» «to» type).2 = EdgeOutcome.added ∧
      (addEdge g «from» «to» type).1.edges = g.edges ++ [⟨«from», «to», type⟩] ∧
      (addEdge g «from» «to» type).1.nodes = g.nodes := by
  rw [addEdge_of_direction_ok g _ _ _ f t hf ht hok]
  exact ⟨rfl, rfl, rfl⟩

theorem addEdge_valid_appends_one_witness :
    (addEdge requestScenario "R1" "P1" "allocation").2 = EdgeOutcome.added ∧
      (addEdge requestScenario "R1" "P1" "allocation").1.edges =
        requestScenario.edges ++ [⟨"R1", "P1", "allocation"⟩] ∧
      (addEdge requestScenario "R1" "P1" "allocation").1.nodes = requestScenario.nodes :=
  addEdge_valid_appends_one requestScenario "R1" "P1" "allocation"
    ⟨"R1", NodeType.RESOURCE, 1⟩ ⟨"P1", NodeType.PROCESS, 1⟩ (by decide) (by decide)
    (Or.inr ⟨rfl, rfl, rfl⟩)

theorem NodeMap.find_of_mem_keys {m : NodeMap} {k : String} (h : k ∈ m.keys) :
    ∃ n, m.find k = some n := by
  cases hf : m.find k with
  | none => exact absurd h ((NodeMap.find_eq_none_iff m k).1 hf)
  | some n => exact ⟨n, rfl⟩

/-- C12: in every graph reachable from the empty graph by `addNode` and `addEdge` calls,
both endpoints of every stored edge are ids present in the node map: each is among the
keys and `find` returns a node for it. -/
theorem no_dangling_edges (g : Graph) (h : Reachable g) :
    ∀ e ∈ g.edges,
      (e.«from» ∈ g.nodes.keys ∧ ∃ n, g.nodes.find e.«from» = some n) ∧
      (e.«to» ∈ g.nodes.keys ∧ ∃ n, g.nodes.find e.«to» = some n) := by
  intro e he
  obtain ⟨h1, h2⟩ := h.edge_endpoints e he
  exact ⟨⟨h1, NodeMap.find_of_mem_keys h1⟩, ⟨h2, NodeMap.find_of_mem_keys h2⟩⟩

theorem no_dangling_edges_witness :
    Reachable classicScenario ∧
      ∀ e ∈ classicScenario.edges,
        (e.«from» ∈ classicScenario.nodes.keys ∧
          ∃ n, classicScenario.nodes.find e.«from» = some n) ∧
        (e.«to» ∈ classicScenario.nodes.keys ∧
          ∃ n, classicScenario.nodes.find e.«to» = some n) :=
  ⟨reachable_classicScenario, no_dangling_edges classicScenario reachable_classicScenario⟩

/-- C18: for every graph and every id not already present, `addNode(id, type,
instances)` yields a graph in which `id` names a node with exactly that type and instance
count; the ids present are the old ones together with `id`, every other id is looked up
as before (the stored entries are the old ones followed by the new one), and the edge
list is unchanged. -/
theorem addNode_fresh_adds_node (g : Graph) (id : String) (type : NodeType)
    (instances : Int) (h : g.nodes.find id = none) :
    (addNode g id type instances).nodes.find id = some ⟨id, type, instances⟩ ∧
      (∀ k, k ≠ id → (addNode g id type instances).nodes.find k = g.nodes.find k) ∧
      (∀ k, k ∈ (addNode g id type instances).nodes.keys ↔ k = id ∨ k ∈ g.nodes.keys) ∧
      (addNode g id type instances).nodes = g.nodes ++ [(id, ⟨id, type, instances⟩)] ∧
      (addNode g id type instances).edges = g.edges := by
  refine ⟨NodeMap.find_assign_self _ _ _, fun k hne => NodeMap.find_assign_ne _ _ _ _ hne,
    fun k => NodeMap.mem_keys_assign _ _ _ _, ?_, rfl⟩
  exact NodeMap.assign_of_find_none _ _ _ h

theorem addNode_fresh_adds_node_witness :
    (addNode singleProcess "R1" NodeType.RESOURCE 2).nodes.find "R1" =
        some ⟨"R1", NodeType.RESOURCE, 2⟩ ∧
      (∀ k, k ≠ "R1" →
        (addNode singleProcess "R1" NodeType.RESOURCE 2).nodes.find k =
          singleProcess.nodes.find k) ∧
      (∀ k, k ∈ (addNode singleProcess "R1" NodeType.RESOURCE 2).nodes.keys ↔
        k = "R1" ∨ k ∈ singleProcess.nodes.keys) ∧
      (addNode singleProcess "R1" NodeType.RESOURCE 2).nodes =
        singleProcess.nodes ++ [("R1", ⟨"R1", NodeType.RESOURCE, 2⟩)] ∧
      (addNode singleProcess "R1" NodeType.RESOURCE 2).edges = singleProcess.edges :=
  addNode_fresh_adds_node singleProcess "R1" NodeType.RESOURCE 2 (by decide)


/-! ## Termination and independence of the fuel -/

/-- For every graph and enumeration order `detectDeadlockOrd` returns; a `true` verdict
comes with a closed walk, a `false` verdict with a closed set of finished nodes that
holds every enumerated key. -/
theorem detectDeadlockOrd_returns (g : Graph) (order : List String) :
    ∃ r, detectDeadlockOrd g order = some r ∧
      (r.deadlocked = true → ∃ x, Relation.TransGen (AdjRel (buildAdj g.edges)) x x) ∧
      (r.deadlocked = false → ∃ s1, FinishedClosed (buildAdj g.edges) s1 ∧
        ∀ k ∈ order, Finished s1 k) := by
  have hU : ∀ a, ∀ b ∈ buildAdj g.edges a,
      b ∈ (order ++ g.edges.map fun e => e.«to»).toFinset := by
    intro a b hb
    obtain ⟨e, he, _, rfl⟩ := (mem_buildAdj g.edges a b).1 hb
    simp only [List.mem_toFinset, List.mem_append, List.mem_map]
    exact Or.inr ⟨e, he, rfl⟩
  have hcard : (unvisited (order ++ g.edges.map fun e => e.«to»).toFinset
      { visited := fun _ => false, recStack := fun _ => false, path := [] }).card <
        dfsFuel order g.edges := by
    refine lt_of_le_of_lt (Finset.card_le_card (Finset.filter_subset _ _)) ?_
    refine lt_of_le_of_lt (List.toFinset_card_le _) ?_
    simp [dfsFuel]
  obtain ⟨r, hr, htrue, hfalse⟩ := detectLoop_spec (buildAdj g.edges) _ hU
    (dfsFuel order g.edges) order
    { visited := fun _ => false, recStack := fun _ => false, path := [] }
    (fun k hk => by simp [hk]) hcard (fun _ => rfl)
    (fun x hx => Bool.noConfusion hx.1)
  refine ⟨r, hr, htrue, fun hd => ?_⟩
  obtain ⟨s1, hframe, hall⟩ := hfalse hd
  exact ⟨s1, hframe.2.2.1, fun k hk => ⟨hall k hk, hframe.2.1 k⟩⟩

theorem dfsLoop_mono {rec1 rec2 : String → DfsState → Option (Bool × DfsState)}
    (h : ∀ node s r, rec1 node s = some r → rec2 node s = some r) :
    ∀ (nbrs : List String) (s : DfsState) (r : Bool × DfsState),
      dfsLoop rec1 nbrs s = some r → dfsLoop rec2 nbrs s = some r := by
  intro nbrs
  induction nbrs with
  | nil => intro s r hr; exact hr
  | cons nb rest ih =>
    intro s r hr
    by_cases hv : s.visited nb = false
    · simp only [dfsLoop, hv, if_true] at hr ⊢
      cases h1 : rec1 nb s with
      | none => rw [h1] at hr; exact Option.noConfusion hr
      | some p =>
        obtain ⟨b, s1⟩ := p
        rw [h1] at hr
        rw [h nb s _ h1]
        cases b with
        | true => exact hr
        | false =>
          by_cases hs : s1.recStack nb = true
          · simp only [hs, if_true] at hr ⊢
            exact hr
          · simp only [hs, if_false] at hr ⊢
            exact ih s1 r hr
    · by_cases hs : s.recStack nb = true
      · simp only [dfsLoop, hv, hs, if_true, if_false] at hr ⊢
        exact hr
      · simp only [dfsLoop, hv, hs, if_false] at hr ⊢
        exact ih s r hr

theorem dfs_fuel_succ (adj : AdjMap) :
    ∀ (fuel : Nat) (node : String) (s : DfsState) (r : Bool × DfsState),
      dfs adj fuel node s = some r → dfs adj (fuel + 1) node s = some r := by
  intro fuel
  induction fuel with
  | zero => intro node s r hr; exact Option.noConfusion hr
  | succ fuel ih =>
    intro node s r hr
    by_cases hv : s.visited node = false
    · rw [dfs] at hr ⊢
      simp only [hv, if_true] at hr ⊢
      cases h1 : dfsLoop (dfs adj fuel) (adj node)
          { visited := s.visited.set node true
            recStack := s.recStack.set node true
            path := s.path ++ [node] } with
      | none => rw [h1] at hr; exact Option.noConfusion hr
      | some p =>
        rw [h1] at hr
        rw [dfsLoop_mono ih _ _ _ h1]
        exact hr
    · rw [dfs] at hr ⊢
      simp only [hv, if_false] at hr ⊢
      exact hr

theorem dfs_fuel_le (adj : AdjMap) {fuel fuel1 : Nat} (hle : fuel ≤ fuel1)
    (node : String) (s : DfsState) (r : Bool × DfsState)
    (h : dfs adj fuel node s = some r) : dfs adj fuel1 node s = some r := by
  induction hle with
  | refl => exact h
  | step _ ih => exact dfs_fuel_succ adj _ node s r ih

theorem detectLoop_fuel_le (adj : AdjMap) {fuel fuel1 : Nat} (hle : fuel ≤ fuel1) :
    ∀ (ks : List String) (s : DfsState) (r : Report),
      detectLoop adj fuel ks s = some r → detectLoop adj fuel1 ks s = some r := by
  intro ks
  induction ks with
  | nil => intro s r hr; exact hr
  | cons k ks ih =>
    intro s r hr
    simp only [detectLoop] at hr ⊢
    cases h1 : dfs adj fuel k s with
    | none => rw [h1] at hr; exact Option.noConfusion hr
    | some p =>
      obtain ⟨b, s1⟩ := p
      rw [h1] at hr
      rw [dfs_fuel_le adj hle k s _ h1]
      cases b with
      | true => exact hr
      | false => exact ih s1 r hr

/-- C14: for every graph, cyclic or not, and so for every graph built by
`addNode`/`addEdge`, `detectDeadlock` terminates with a verdict under every enumeration
order: the depth bound `dfsFuel`, the number of nodes `dfs` can mark visited plus one,
is never exhausted, because `dfs` recurses only into unvisited nodes and marks a node
before exploring its neighbours; any larger recursion budget yields the same report. -/
theorem detectDeadlock_terminates (g : Graph) (order : List String) (fuel : Nat)
    (hfuel : dfsFuel order g.edges ≤ fuel) :
    ∃ r, detectDeadlockOrd g order = some r ∧
      detectLoop (buildAdj g.edges) fuel order
        { visited := fun _ => false, recStack := fun _ => false, path := [] } = some r := by
  obtain ⟨r, hr, _⟩ := detectDeadlockOrd_returns g order
  exact ⟨r, hr, detectLoop_fuel_le _ hfuel order _ r hr⟩

theorem detectDeadlock_terminates_witness :
    ∃ r, detectDeadlockOrd classicScenario ["P1", "P2", "R1", "R2"] = some r ∧
      detectLoop (buildAdj classicScenario.edges) 100 ["P1", "P2", "R1", "R2"]
        { visited := fun _ => false, recStack := fun _ => false, path := [] } = some r :=
  detectDeadlock_terminates classicScenario ["P1", "P2", "R1", "R2"] 100 (by decide)

/-! ## The path kept by `dfs` -/

theorem PathInv.of_frame {adj : AdjMap} {s s1 : DfsState} (h : PathInv adj s)
    (hvis : ∀ x, s.visited x = true → s1.visited x = true)
    (hstack : ∀ x, s1.recStack x = s.recStack x) (hpath : s1.path = s.path) :
    PathInv adj s1 := by
  obtain ⟨h1, h2, h3, h4⟩ := h
  refine ⟨hpath ▸ h1, hpath ▸ h2, fun x => ?_, fun x hx => ?_⟩
  · rw [hstack x, hpath]; exact h3 x
  · rw [hstack x] at hx; exact hvis x (h4 x hx)

theorem Detected.weaken {adj : AdjMap} {p q cyc : List String}
    (h : Detected adj q cyc) (hpq : p <+: q) : Detected adj p cyc := by
  obtain ⟨full, nb, cur, h1, h2⟩ := h
  exact ⟨full, nb, cur, hpq.trans h1, h2⟩

theorem eraseBefore_of_mem {path : List String} {nb : String} (h : nb ∈ path) :
    eraseBefore path nb = path.drop (path.indexOf nb) := by
  have : path.indexOf nb ≠ path.length := Nat.ne_of_lt (List.indexOf_lt_length.2 h)
  simp [eraseBefore, this]

theorem dfsLoop_path_spec (adj : AdjMap)
    (recurse : String → DfsState → Option (Bool × DfsState))
    (ih : PathContract adj recurse) (node : String) :
    ∀ (nbrs : List String) (s : DfsState) (b : Bool) (s1 : DfsState),
      dfsLoop recurse nbrs s = some (b, s1) → (∀ nb ∈ nbrs, nb ∈ adj node) →
      PathInv adj s → s.path.getLast? = some node →
      (b = false → (∀ x, s.visited x = true → s1.visited x = true) ∧
        (∀ x, s1.recStack x = s.recStack x) ∧ s1.path = s.path) ∧
      (b = true → Detected adj s.path s1.path) := by
  intro nbrs
  induction nbrs with
  | nil =>
    intro s b s1 h _ _ _
    simp only [dfsLoop, Option.some.injEq, Prod.mk.injEq] at h
    obtain ⟨rfl, rfl⟩ := h
    exact ⟨fun _ => ⟨fun _ hx => hx, fun _ => rfl, rfl⟩, fun hb => Bool.noConfusion hb⟩
  | cons nb rest ihl =>
    intro s b s1 h hnbrs hinv hlast
    have hedge : nb ∈ adj node := hnbrs nb (List.mem_cons_self _ _)
    have hrest : ∀ x ∈ rest, x ∈ adj node := fun x hx => hnbrs x (List.mem_cons_of_mem _ hx)
    by_cases hv : s.visited nb = false
    · have hrnb : s.recStack nb = false := by
        cases hr : s.recStack nb with
        | false => rfl
        | true => rw [hinv.2.2.2 nb hr] at hv; exact Bool.noConfusion hv
      simp only [dfsLoop, hv, if_true] at h
      cases h1 : recurse nb s with
      | none => rw [h1] at h; exact Option.noConfusion h
      | some p =>
        obtain ⟨b2, s2⟩ := p
        rw [h1] at h
        obtain ⟨hfalse, htrue⟩ := ih nb s b2 s2 h1 hinv hrnb
          (fun l hl => by
            rw [hlast] at hl
            cases hl
            exact hedge)
        cases b2 with
        | true =>
          simp only [Option.some.injEq, Prod.mk.injEq] at h
          obtain ⟨rfl, rfl⟩ := h
          exact ⟨fun hb => Bool.noConfusion hb,
            fun _ => (htrue rfl).weaken (List.prefix_append _ _)⟩
        | false =>
          obtain ⟨hvis, hstack, hpath⟩ := hfalse rfl
          have hr2 : ¬ s2.recStack nb = true := by
            rw [hstack nb, hrnb]; exact Bool.noConfusion
          simp only [hr2, if_false] at h
          obtain ⟨hfalse2, htrue2⟩ := ihl s2 b s1 h hrest
            (hinv.of_frame hvis hstack hpath) (hpath ▸ hlast)
          refine ⟨fun hb => ?_, fun hb => hpath ▸ htrue2 hb⟩
          obtain ⟨hvis2, hstack2, hpath2⟩ := hfalse2 hb
          exact ⟨fun x hx => hvis2 x (hvis x hx), fun x => (hstack2 x).trans (hstack x),
            hpath2.trans hpath⟩
    · by_cases hr : s.recStack nb = true
      · simp only [dfsLoop, hv, hr, if_true, if_false, Option.some.injEq,
          Prod.mk.injEq] at h
        obtain ⟨rfl, rfl⟩ := h
        refine ⟨fun hb => Bool.noConfusion hb, fun _ => ?_⟩
        have hmem : nb ∈ s.path := (hinv.2.2.1 nb).1 hr
        exact ⟨s.path, nb, node, List.prefix_refl _, hinv.1, hinv.2.1, hlast, hedge, hmem,
          eraseBefore_of_mem hmem⟩
      · simp only [dfsLoop, hv, hr, if_false] at h
        exact ihl s b s1 h hrest hinv hlast


theorem dfs_path_spec (adj : AdjMap) : ∀ fuel, PathContract adj (dfs adj fuel) := by
  intro fuel
  induction fuel with
  | zero =>
    intro node s b s1 h
    exact Option.noConfusion h
  | succ fuel ih =>
    intro node s b s1 h hinv hrnode hlast
    obtain ⟨hnodup, hchain, hstackpath, hsv⟩ := hinv
    by_cases hv : s.visited node = false
    · rw [dfs] at h
      simp only [hv, if_true] at h
      have hnotin : node ∉ s.path := by
        intro hmem
        rw [(hstackpath node).2 hmem] at hrnode
        exact Bool.noConfusion hrnode
      have hinv1 : PathInv adj
          { visited := s.visited.set node true
            recStack := s.recStack.set node true
            path := s.path ++ [node] } := by
        refine ⟨?_, ?_, fun x => ?_, fun x hx => ?_⟩
        · refine List.Nodup.append hnodup (List.nodup_singleton node) ?_
          intro a ha ha2
          rw [List.mem_singleton] at ha2
          exact hnotin (ha2 ▸ ha)
        · refine List.chain'_append.2 ⟨hchain, List.chain'_singleton node, ?_⟩
          intro l hl y hy
          simp only [List.head?_cons, Option.mem_def, Option.some.injEq] at hy
          subst hy
          exact hlast l hl
        · dsimp only
          by_cases hxn : x = node
          · simp [BoolMap.set, hxn]
          · simp [BoolMap.set, hxn, hstackpath x]
        · dsimp only at hx ⊢
          by_cases hxn : x = node
          · simp [BoolMap.set, hxn]
          · simp only [BoolMap.set, if_neg hxn] at hx ⊢
            exact hsv x hx
      cases h1 : dfsLoop (dfs adj fuel) (adj node)
          { visited := s.visited.set node true
            recStack := s.recStack.set node true
            path := s.path ++ [node] } with
      | none => rw [h1] at h; exact Option.noConfusion h
      | some p =>
        obtain ⟨b2, s2⟩ := p
        rw [h1] at h
        obtain ⟨hfalse, htrue⟩ := dfsLoop_path_spec adj (dfs adj fuel) ih node (adj node) _
          b2 s2 h1 (fun _ hx => hx) hinv1 (List.getLast?_concat _)
        cases b2 with
        | true =>
          simp only [Option.some.injEq, Prod.mk.injEq] at h
          obtain ⟨rfl, rfl⟩ := h
          exact ⟨fun hb => Bool.noConfusion hb, fun _ => htrue rfl⟩
        | false =>
          simp only [Option.some.injEq, Prod.mk.injEq] at h
          obtain ⟨rfl, rfl⟩ := h
          obtain ⟨hvis, hstack, hpath⟩ := hfalse rfl
          refine ⟨fun _ => ⟨fun x hx => ?_, fun x => ?_, ?_⟩, fun hb => Bool.noConfusion hb⟩
          · apply hvis x
            dsimp only
            by_cases hxn : x = node
            · simp [BoolMap.set, hxn]
            · simp only [BoolMap.set, if_neg hxn]; exact hx
          · have := hstack x
            dsimp only at this ⊢
            by_cases hxn : x = node
            · simp [BoolMap.set, hxn, hrnode]
            · simp only [BoolMap.set, if_neg hxn] at this ⊢
              exact this
          · dsimp only at hpath ⊢
            rw [hpath, List.dropLast_concat]
    · rw [dfs] at h
      simp only [hv, if_false, Option.some.injEq, Prod.mk.injEq] at h
      obtain ⟨rfl, rfl⟩ := h
      refine ⟨fun _ => ⟨fun _ hx => hx, fun x => ?_, rfl⟩, fun hb => Bool.noConfusion hb⟩
      dsimp only
      by_cases hxn : x = node
      · simp [BoolMap.set, hxn, hrnode]
      · simp [BoolMap.set, hxn]

theorem detectLoop_path_spec (adj : AdjMap) (fuel : Nat) :
    ∀ (ks : List String) (s : DfsState) (cyc : List String),
      detectLoop adj fuel ks s = some ⟨true, cyc⟩ → PathInv adj s → s.path = [] →
      ∃ k ∈ ks, Detected adj [k] cyc := by
  intro ks
  induction ks with
  | nil =>
    intro s cyc h
    simp [detectLoop] at h
  | cons k ks ih =>
    intro s cyc h hinv hpath
    have hstack0 : ∀ x, s.recStack x = false := by
      intro x
      cases hx : s.recStack x with
      | false => rfl
      | true =>
        have := (hinv.2.2.1 x).1 hx
        rw [hpath] at this
        exact absurd this (List.not_mem_nil x)
    simp only [detectLoop] at h
    cases h1 : dfs adj fuel k s with
    | none => rw [h1] at h; exact Option.noConfusion h
    | some p =>
      obtain ⟨b, s1⟩ := p
      rw [h1] at h
      obtain ⟨hfalse, htrue⟩ := dfs_path_spec adj fuel k s b s1 h1 hinv (hstack0 k)
        (fun l hl => by rw [hpath] at hl; exact Option.noConfusion hl)
      cases b with
      | true =>
        simp only [Option.some.injEq, Report.mk.injEq, true_and] at h
        have hd := htrue rfl
        rw [hpath, h] at hd
        exact ⟨k, List.mem_cons_self _ _, hd⟩
      | false =>
        obtain ⟨hvis, hstack, hp⟩ := hfalse rfl
        obtain ⟨k1, hk1, hd⟩ := ih s1 cyc h (hinv.of_frame hvis hstack hp) (hp.trans hpath)
        exact ⟨k1, List.mem_cons_of_mem _ hk1, hd⟩

/-- A `true` verdict of `detectDeadlockOrd` comes with a detected cycle on a DFS path that
starts at an enumerated key. -/
theorem detectDeadlockOrd_detected (g : Graph) (order : List String) (cyc : List String)
    (h : detectDeadlockOrd g order = some ⟨true, cyc⟩) :
    ∃ k ∈ order, Detected (buildAdj g.edges) [k] cyc :=
  detectLoop_path_spec _ _ order _ cyc h
    ⟨List.nodup_nil, List.chain'_nil, fun _ => by simp, fun _ hx => Bool.noConfusion hx⟩ rfl


/-! ## What a detected cycle looks like -/

theorem Detected.shape {adj : AdjMap} {p cyc : List String} (h : Detected adj p cyc) :
    ∃ (full : List String) (nb cur : String),
      p <+: full ∧ full.Nodup ∧ List.Chain' (AdjRel adj) full ∧
      full.getLast? = some cur ∧ AdjRel adj cur nb ∧ nb ∈ full ∧
      cyc = full.drop (full.indexOf nb) ∧
      cyc.head? = some nb ∧ cyc.getLast? = some cur ∧
      cyc.Nodup ∧ List.Chain' (AdjRel adj) cyc := by
  obtain ⟨full, nb, cur, hp, hnodup, hchain, hlast, hedge, hmem, hcyc⟩ := h
  have hlt : full.indexOf nb < full.length := List.indexOf_lt_length.2 hmem
  refine ⟨full, nb, cur, hp, hnodup, hchain, hlast, hedge, hmem, hcyc, ?_, ?_, ?_, ?_⟩
  · rw [hcyc, List.drop_eq_getElem_cons hlt, List.getElem_indexOf hlt]
    rfl
  · rw [hcyc, List.getLast?_drop, if_neg (Nat.not_le.2 hlt), hlast]
  · rw [hcyc]
    exact hnodup.sublist (List.drop_sublist _ _)
  · rw [hcyc]
    exact hchain.drop _

theorem chain_reach {R : String → String → Prop} :
    ∀ (l : List String) (a : String), List.Chain' R (a :: l) →
      ∀ x ∈ a :: l, Relation.ReflTransGen R a x := by
  intro l
  induction l with
  | nil =>
    intro a _ x hx
    rw [List.mem_singleton] at hx
    rw [hx]
  | cons b l ih =>
    intro a hchain x hx
    rcases List.mem_cons.1 hx with rfl | hx
    · exact Relation.ReflTransGen.refl
    · have h1 := List.chain'_cons.1 hchain
      exact Relation.ReflTransGen.head h1.1 (ih b h1.2 x hx)

theorem Detected.closed_walk {adj : AdjMap} {k : String} {cyc : List String}
    (h : Detected adj [k] cyc) :
    ∃ x, Relation.ReflTransGen (AdjRel adj) k x ∧ Relation.TransGen (AdjRel adj) x x := by
  obtain ⟨full, nb, cur, hp, _, hchain, _, hedge, hmem, _, hhead, hlast, _, hcchain⟩ := h.shape
  obtain ⟨t, rfl⟩ := hp
  refine ⟨nb, chain_reach _ k hchain nb hmem, ?_⟩
  cases cyc with
  | nil => exact Option.noConfusion hhead
  | cons c rest =>
    simp only [List.head?_cons, Option.some.injEq] at hhead
    subst hhead
    have hcur : cur ∈ c :: rest := List.mem_of_getLast?_eq_some hlast
    exact Relation.TransGen.tail' (chain_reach _ c hcchain cur hcur) hedge

/-- For every graph and enumeration order `detectDeadlockOrd` returns, and its verdict is
`true` exactly when a closed walk can be reached from one of the enumerated keys. -/
theorem detectDeadlockOrd_verdict (g : Graph) (order : List String) :
    ∃ r, detectDeadlockOrd g order = some r ∧
      (r.deadlocked = true ↔ ∃ k ∈ order, ∃ x,
        Relation.ReflTransGen (AdjRel (buildAdj g.edges)) k x ∧
        Relation.TransGen (AdjRel (buildAdj g.edges)) x x) := by
  obtain ⟨r, hr, _, hfalse⟩ := detectDeadlockOrd_returns g order
  refine ⟨r, hr, fun hd => ?_, fun hcyc => ?_⟩
  · obtain ⟨d, cyc⟩ := r
    simp only at hd
    subst hd
    obtain ⟨k, hk, hdet⟩ := detectDeadlockOrd_detected g order cyc hr
    exact ⟨k, hk, hdet.closed_walk⟩
  · cases hd : r.deadlocked with
    | true => rfl
    | false =>
      exfalso
      obtain ⟨s1, hclosed, hall⟩ := hfalse hd
      obtain ⟨k, hk, x, hkx, hx⟩ := hcyc
      exact (hclosed x (hclosed.reach (hall k hk) hkx)).2 hx

theorem Reachable.edge_ne {g : Graph} (h : Reachable g) :
    ∀ e ∈ g.edges, e.«from» ≠ e.«to» := by
  induction h with
  | empty =>
    intro e he
    simp [Graph.empty] at he
  | @addNode g id type instances _ ih => exact ih
  | @addEdge g a b type _ ih =>
    rcases addEdge_cases g a b type with ⟨h, _⟩ | ⟨h, _⟩ | ⟨h, f, t, hf, ht, hok⟩
    · rw [h]; exact ih
    · rw [h]; exact ih
    · rw [h]
      intro e he
      simp only [List.mem_append, List.mem_singleton] at he
      rcases he with he | rfl
      · exact ih e he
      · intro hab
        simp only at hab
        subst hab
        rw [hf] at ht
        cases ht
        rcases hok with ⟨h1, h2, _⟩ | ⟨h1, h2, _⟩ <;>
          exact NodeType.noConfusion (h1.symm.trans h2)


/-! ## The reported cycle -/

/-- C16: for every graph built by `addNode`/`addEdge` on which `detectDeadlock` returns
`true`, under whatever enumeration order, the node sequence left in the cycle vector is a
simple directed cycle of the graph: it is non-empty, holds no node twice, every
consecutive pair is joined by a stored edge, and a stored edge leads from its last node
back to its first. -/
theorem reported_cycle_is_simple_cycle (g : Graph) (_hreach : Reachable g)
    (order : List String) (cyc : List String)
    (h : detectDeadlockOrd g order = some ⟨true, cyc⟩) :
    ∃ hne : cyc ≠ [], cyc.Nodup ∧ List.Chain' (HasEdge g) cyc ∧
      HasEdge g (cyc.getLast hne) (cyc.head hne) := by
  obtain ⟨k, _, hdet⟩ := detectDeadlockOrd_detected g order cyc h
  obtain ⟨full, nb, cur, _, _, _, _, hedge, _, _, hhead, hclast, hnodup, hchain⟩ := hdet.shape
  rw [adjRel_buildAdj] at hchain hedge
  have hne : cyc ≠ [] := by
    rintro rfl
    exact Option.noConfusion hhead
  refine ⟨hne, hnodup, hchain, ?_⟩
  rw [List.getLast?_eq_getLast _ hne] at hclast
  rw [List.head?_eq_head hne] at hhead
  rw [Option.some.inj hclast, Option.some.inj hhead]
  exact hedge

theorem reported_cycle_is_simple_cycle_witness :
    ∃ hne : ["P1", "R1", "P2", "R2"] ≠ [], ["P1", "R1", "P2", "R2"].Nodup ∧
      List.Chain' (HasEdge classicScenario) ["P1", "R1", "P2", "R2"] ∧
      HasEdge classicScenario (["P1", "R1", "P2", "R2"].getLast hne)
        (["P1", "R1", "P2", "R2"].head hne) :=
  reported_cycle_is_simple_cycle classicScenario reachable_classicScenario
    ["P1", "P2", "R1", "R2"] ["P1", "R1", "P2", "R2"] (by decide)

/-! ## The verdict and the enumeration order -/

theorem classicScenario_cycles_differ :
    detectDeadlockOrd classicScenario ["P1", "P2", "R1", "R2"] =
        some ⟨true, ["P1", "R1", "P2", "R2"]⟩ ∧
      detectDeadlockOrd classicScenario ["R2", "R1", "P2", "P1"] =
        some ⟨true, ["R2", "P1", "R1", "P2"]⟩ := by
  decide

/-- C17: for every graph and any two enumeration orders of the same node map,
`detectDeadlock` returns under both and the two verdicts are the same boolean; the
reported cycles are not compared. -/
theorem verdict_independent_of_order (g : Graph) (order1 order2 : List String)
    (h1 : order1.Perm g.nodes.keys) (h2 : order2.Perm g.nodes.keys) :
    ∃ r1 r2, detectDeadlockOrd g order1 = some r1 ∧ detectDeadlockOrd g order2 = some r2 ∧
      r1.deadlocked = r2.deadlocked := by
  obtain ⟨r1, hr1, hv1⟩ := detectDeadlockOrd_verdict g order1
  obtain ⟨r2, hr2, hv2⟩ := detectDeadlockOrd_verdict g order2
  refine ⟨r1, r2, hr1, hr2, ?_⟩
  have hperm : order1.Perm order2 := h1.trans h2.symm
  rw [Bool.eq_iff_iff, hv1, hv2]
  constructor
  · rintro ⟨k, hk, hx⟩
    exact ⟨k, hperm.mem_iff.1 hk, hx⟩
  · rintro ⟨k, hk, hx⟩
    exact ⟨k, hperm.mem_iff.2 hk, hx⟩

theorem verdict_independent_of_order_witness :
    ∃ r1 r2, detectDeadlockOrd classicScenario ["P1", "P2", "R1", "R2"] = some r1 ∧
      detectDeadlockOrd classicScenario ["R2", "R1", "P2", "P1"] = some r2 ∧
      r1.deadlocked = r2.deadlocked :=
  verdict_independent_of_order classicScenario ["P1", "P2", "R1", "R2"]
    ["R2", "R1", "P2", "P1"] (List.Perm.refl _)
    (List.mem_permutations'.1 (by decide))


/-! ## The recorded run agrees with `dfs` -/

theorem dfsLoop_eq_trace {recurse : String → DfsState → Option (Bool × DfsState)}
    {recurseT : String → DfsState → Option Trace}
    (h : ∀ n s, recurse n s = (recurseT n s).map Trace.result) (node : String) :
    ∀ (nbrs : List String) (s : DfsState),
      dfsLoop recurse nbrs s = (dfsLoopTrace recurseT node nbrs s).map Trace.result := by
  intro nbrs
  induction nbrs with
  | nil => intro s; rfl
  | cons nb rest ih =>
    intro s
    by_cases hv : s.visited nb = false
    · simp only [dfsLoop, dfsLoopTrace, hv, if_true]
      rw [h nb s]
      cases recurseT nb s with
      | none => rfl
      | some t =>
        cases t with
        | found d => rfl
        | finished s1 =>
          by_cases hr : s1.recStack nb = true
          · simp [Trace.result, hr]
          · simp only [Option.map_some', Trace.result, hr, if_false]
            exact ih s1
    · by_cases hr : s.recStack nb = true
      · simp [dfsLoop, dfsLoopTrace, hv, hr, Trace.result]
      · simp only [dfsLoop, dfsLoopTrace, hv, hr, if_false]
        exact ih s

theorem dfs_eq_trace (adj : AdjMap) :
    ∀ (fuel : Nat) (node : String) (s : DfsState),
      dfs adj fuel node s = (dfsTrace adj fuel node s).map Trace.result := by
  intro fuel
  induction fuel with
  | zero => intro node s; rfl
  | succ fuel ih =>
    intro node s
    by_cases hv : s.visited node = false
    · rw [dfs, dfsTrace]
      simp only [hv, if_true]
      rw [dfsLoop_eq_trace ih node]
      cases dfsLoopTrace (dfsTrace adj fuel) node (adj node)
          { visited := s.visited.set node true
            recStack := s.recStack.set node true
            path := s.path ++ [node] } with
      | none => rfl
      | some t =>
        cases t with
        | found d => rfl
        | finished s2 => rfl
    · rw [dfs, dfsTrace]
      simp only [hv, if_false]
      rfl

theorem detectLoop_eq_trace (adj : AdjMap) (fuel : Nat) :
    ∀ (ks : List String) (s : DfsState),
      detectLoop adj fuel ks s = (detectLoopTrace adj fuel ks s).map Trace.report := by
  intro ks
  induction ks with
  | nil => intro s; rfl
  | cons k ks ih =>
    intro s
    simp only [detectLoop, detectLoopTrace]
    rw [dfs_eq_trace adj fuel k s]
    cases dfsTrace adj fuel k s with
    | none => rfl
    | some t =>
      cases t with
      | found d => rfl
      | finished s1 => exact ih s1

theorem detectDeadlockOrd_eq_trace (g : Graph) (order : List String) :
    detectDeadlockOrd g order = (detectDeadlockTrace g order).map Trace.report :=
  detectLoop_eq_trace _ _ order _

theorem detectLoop_eq_st (adj : AdjMap) (fuel : Nat) :
    ∀ (ks : List String) (s : DfsState),
      detectLoop adj fuel ks s =
        (detectLoopSt adj fuel ks s).map fun p => (⟨p.1, p.2.path⟩ : Report) := by
  intro ks
  induction ks with
  | nil => intro s; rfl
  | cons k ks ih =>
    intro s
    simp only [detectLoop, detectLoopSt]
    cases dfs adj fuel k s with
    | none => rfl
    | some p =>
      obtain ⟨b, s1⟩ := p
      cases b with
      | true => rfl
      | false => exact ih s1


/-! ## The state at a detection -/

theorem PathInv.enter {adj : AdjMap} {s : DfsState} {node : String} (hinv : PathInv adj s)
    (hrnode : s.recStack node = false) (hlast : ∀ l ∈ s.path.getLast?, AdjRel adj l node) :
    PathInv adj
      { visited := s.visited.set node true
        recStack := s.recStack.set node true
        path := s.path ++ [node] } := by
  obtain ⟨hnodup, hchain, hstackpath, hsv⟩ := hinv
  have hnotin : node ∉ s.path := by
    intro hmem
    rw [(hstackpath node).2 hmem] at hrnode
    exact Bool.noConfusion hrnode
  refine ⟨?_, ?_, fun x => ?_, fun x hx => ?_⟩
  · refine List.Nodup.append hnodup (List.nodup_singleton node) ?_
    intro a ha ha2
    rw [List.mem_singleton] at ha2
    exact hnotin (ha2 ▸ ha)
  · refine List.chain'_append.2 ⟨hchain, List.chain'_singleton node, ?_⟩
    intro l hl y hy
    simp only [List.head?_cons, Option.mem_def, Option.some.injEq] at hy
    subst hy
    exact hlast l hl
  · dsimp only
    by_cases hxn : x = node
    · simp [BoolMap.set, hxn]
    · simp [BoolMap.set, hxn, hstackpath x]
  · dsimp only at hx ⊢
    by_cases hxn : x = node
    · simp [BoolMap.set, hxn]
    · simp only [BoolMap.set, if_neg hxn] at hx ⊢
      exact hsv x hx

theorem DetectionOK.shorten {adj : AdjMap} {p q : List String} {d : Detection}
    (h : DetectionOK adj q d) (hpq : p <+: q) : DetectionOK adj p d :=
  ⟨h.1, hpq.trans h.2.1, h.2.2⟩

theorem dfsLoopTrace_spec (adj : AdjMap) (fuel : Nat)
    (ih : TraceContract adj (dfsTrace adj fuel)) (node : String) :
    ∀ (nbrs : List String) (s : DfsState) (d : Detection),
      dfsLoopTrace (dfsTrace adj fuel) node nbrs s = some (.found d) →
      (∀ nb ∈ nbrs, nb ∈ adj node) → PathInv adj s → s.path.getLast? = some node →
      DetectionOK adj s.path d := by
  intro nbrs
  induction nbrs with
  | nil =>
    intro s d h
    simp [dfsLoopTrace] at h
  | cons nb rest ihl =>
    intro s d h hnbrs hinv hlast
    have hedge : nb ∈ adj node := hnbrs nb (List.mem_cons_self _ _)
    have hrest : ∀ x ∈ rest, x ∈ adj node := fun x hx => hnbrs x (List.mem_cons_of_mem _ hx)
    by_cases hv : s.visited nb = false
    · have hrnb : s.recStack nb = false := by
        cases hr : s.recStack nb with
        | false => rfl
        | true => rw [hinv.2.2.2 nb hr] at hv; exact Bool.noConfusion hv
      have hlast1 : ∀ l ∈ s.path.getLast?, AdjRel adj l nb := by
        intro l hl
        rw [hlast] at hl
        cases hl
        exact hedge
      simp only [dfsLoopTrace, hv, if_true] at h
      cases h1 : dfsTrace adj fuel nb s with
      | none => rw [h1] at h; exact Option.noConfusion h
      | some t =>
        rw [h1] at h
        cases t with
        | found d1 =>
          simp only [Option.some.injEq, Trace.found.injEq] at h
          subst h
          exact (ih nb s d1 h1 hinv hrnb hlast1).shorten (List.prefix_append _ _)
        | finished s1 =>
          have hdfs : dfs adj fuel nb s = some (false, s1) := by
            rw [dfs_eq_trace, h1]; rfl
          obtain ⟨hvis, hstack, hpath⟩ :=
            (dfs_path_spec adj fuel nb s false s1 hdfs hinv hrnb hlast1).1 rfl
          have hr2 : ¬ s1.recStack nb = true := by
            rw [hstack nb, hrnb]; exact Bool.noConfusion
          simp only [hr2, if_false] at h
          exact hpath ▸ ihl s1 d h hrest (hinv.of_frame hvis hstack hpath) (hpath ▸ hlast)
    · by_cases hr : s.recStack nb = true
      · rw [dfsLoopTrace, if_neg hv, if_pos hr] at h
        simp only [Option.some.injEq, Trace.found.injEq] at h
        subst h
        exact ⟨hinv, List.prefix_refl _, hlast, hedge, by simpa using hv, hr⟩
      · rw [dfsLoopTrace, if_neg hv, if_neg hr] at h
        exact ihl s d h hrest hinv hlast

theorem dfsTrace_spec (adj : AdjMap) : ∀ fuel, TraceContract adj (dfsTrace adj fuel) := by
  intro fuel
  induction fuel with
  | zero =>
    intro node s d h
    exact Option.noConfusion h
  | succ fuel ih =>
    intro node s d h hinv hrnode hlast
    by_cases hv : s.visited node = false
    · rw [dfsTrace] at h
      simp only [hv, if_true] at h
      cases h1 : dfsLoopTrace (dfsTrace adj fuel) node (adj node)
          { visited := s.visited.set node true
            recStack := s.recStack.set node true
            path := s.path ++ [node] } with
      | none => rw [h1] at h; exact Option.noConfusion h
      | some t =>
        rw [h1] at h
        cases t with
        | found d1 =>
          simp only [Option.some.injEq, Trace.found.injEq] at h
          subst h
          exact dfsLoopTrace_spec adj fuel ih node (adj node) _ d1 h1 (fun _ hx => hx)
            (hinv.enter hrnode hlast) (List.getLast?_concat _)
        | finished s2 =>
          simp at h
    · rw [dfsTrace] at h
      simp [hv] at h

theorem detectLoopTrace_spec (adj : AdjMap) (fuel : Nat) :
    ∀ (ks : List String) (s : DfsState) (d : Detection),
      detectLoopTrace adj fuel ks s = some (.found d) → PathInv adj s → s.path = [] →
      ∃ k ∈ ks, DetectionOK adj [k] d := by
  intro ks
  induction ks with
  | nil =>
    intro s d h
    simp [detectLoopTrace] at h
  | cons k ks ih =>
    intro s d h hinv hpath
    have hstack0 : ∀ x, s.recStack x = false := by
      intro x
      cases hx : s.recStack x with
      | false => rfl
      | true =>
        have := (hinv.2.2.1 x).1 hx
        rw [hpath] at this
        exact absurd this (List.not_mem_nil x)
    have hlast : ∀ l ∈ s.path.getLast?, AdjRel adj l k := by
      intro l hl
      rw [hpath] at hl
      exact Option.noConfusion hl
    simp only [detectLoopTrace] at h
    cases h1 : dfsTrace adj fuel k s with
    | none => rw [h1] at h; exact Option.noConfusion h
    | some t =>
      rw [h1] at h
      cases t with
      | found d1 =>
        simp only [Option.some.injEq, Trace.found.injEq] at h
        subst h
        have hd := dfsTrace_spec adj fuel k s d1 h1 hinv (hstack0 k) hlast
        rw [hpath] at hd
        exact ⟨k, List.mem_cons_self _ _, hd⟩
      | finished s1 =>
        have hdfs : dfs adj fuel k s = some (false, s1) := by
          rw [dfs_eq_trace, h1]; rfl
        obtain ⟨hvis, hstack, hp⟩ :=
          (dfs_path_spec adj fuel k s false s1 hdfs hinv (hstack0 k) hlast).1 rfl
        obtain ⟨k1, hk1, hd⟩ := ih s1 d h (hinv.of_frame hvis hstack hp) (hp.trans hpath)
        exact ⟨k1, List.mem_cons_of_mem _ hk1, hd⟩

/-- A `true` report of `detectDeadlockOrd` stems from a recorded detection at a DFS state
whose path starts at an enumerated key, and the reported cycle is that path with
everything before the re-encountered neighbour erased. -/
theorem detectDeadlockOrd_detection (g : Graph) (order : List String) (cyc : List String)
    (h : detectDeadlockOrd g order = some ⟨true, cyc⟩) :
    ∃ d, detectDeadlockTrace g order = some (.found d) ∧
      (∃ k ∈ order, DetectionOK (buildAdj g.edges) [k] d) ∧
      cyc = d.state.path.drop (d.state.path.indexOf d.neighbor) := by
  rw [detectDeadlockOrd_eq_trace] at h
  cases ht : detectDeadlockTrace g order with
  | none => rw [ht] at h; exact Option.noConfusion h
  | some t =>
    rw [ht] at h
    cases t with
    | finished s1 =>
      simp [Trace.report, Trace.result] at h
    | found d =>
      simp only [Option.map_some', Trace.report, Trace.result, Option.some.injEq,
        Report.mk.injEq, true_and] at h
      obtain ⟨k, hk, hd⟩ := detectLoopTrace_spec _ _ order _ d ht
        ⟨List.nodup_nil, List.chain'_nil, fun _ => by simp, fun _ hx => Bool.noConfusion hx⟩
        rfl
      refine ⟨d, rfl, ⟨k, hk, hd⟩, ?_⟩
      rw [← h]
      exact eraseBefore_of_mem ((hd.1.2.2.1 d.neighbor).1 hd.2.2.2.2.2)


theorem drop_indexOf_ends {l : List String} {a : String} (h : a ∈ l) :
    (l.drop (l.indexOf a)).head? = some a ∧
      (l.drop (l.indexOf a)).getLast? = l.getLast? := by
  have hlt : l.indexOf a < l.length := List.indexOf_lt_length.2 h
  constructor
  · rw [List.drop_eq_getElem_cons hlt, List.getElem_indexOf hlt]
    rfl
  · rw [List.getLast?_drop, if_neg (Nat.not_le.2 hlt)]

/-! ## The reported cycle and the DFS path -/

/-- C15, as stated, fails: in the classic scenario `detectDeadlock` reports a deadlock
with the cycle `[P1, R1, P2, R2]`, and under every enumeration order of the node map the
reported cycle is a rotation of that list whose first and last entries differ: the
re-encountered node is not appended again. -/
theorem reported_cycle_not_closed :
    detectDeadlock classicScenario = some ⟨true, ["P1", "R1", "P2", "R2"]⟩ ∧
      (["P1", "R1", "P2", "R2"].head? : Option String) ≠ ["P1", "R1", "P2", "R2"].getLast? ∧
      ∀ order ∈ classicScenario.nodes.keys.permutations',
        ∃ cyc ∈ [["P1", "R1", "P2", "R2"], ["R1", "P2", "R2", "P1"],
            ["P2", "R2", "P1", "R1"], ["R2", "P1", "R1", "P2"]],
          detectDeadlockOrd classicScenario order = some ⟨true, cyc⟩ ∧
            cyc.head? ≠ cyc.getLast? := by
  decide

/-- C15, amended: for every graph built by `addNode`/`addEdge` on which `detectDeadlock`
reports a deadlock, the run entered the "Cycle found" branch of `dfs` at a recorded state
`d.state`, while scanning the neighbours of the current node `d.node` and meeting the
neighbour `d.neighbor`. At that moment `path` is the current DFS path (duplicate-free, a
chain of stored edges from an enumerated key to `d.node`, its nodes exactly those on the
recursion stack) and `d.neighbor` is visited and on the recursion stack. The reported
cycle is that path from `d.neighbor` through `d.node`; the start node is not appended
again, so the first entry is `d.neighbor`, the last entry is `d.node`, an edge leads from
the last back to the first, and the two are different nodes. -/
theorem reported_cycle_is_dfs_path_suffix (g : Graph) (hreach : Reachable g)
    (order : List String) (cyc : List String)
    (h : detectDeadlockOrd g order = some ⟨true, cyc⟩) :
    ∃ d, detectDeadlockTrace g order = some (.found d) ∧
      d.state.path.Nodup ∧ List.Chain' (HasEdge g) d.state.path ∧
      (∀ x, d.state.recStack x = true ↔ x ∈ d.state.path) ∧
      (∃ k ∈ order, d.state.path.head? = some k) ∧
      d.state.path.getLast? = some d.node ∧
      HasEdge g d.node d.neighbor ∧
      d.state.visited d.neighbor = true ∧ d.state.recStack d.neighbor = true ∧
      cyc = d.state.path.drop (d.state.path.indexOf d.neighbor) ∧
      cyc.head? = some d.neighbor ∧ cyc.getLast? = some d.node ∧
      d.node ≠ d.neighbor ∧ cyc.head? ≠ cyc.getLast? := by
  obtain ⟨d, hd, ⟨k, hk, hinv, hprefix, hlast, hedge, hvis, hstack⟩, hcyc⟩ :=
    detectDeadlockOrd_detection g order cyc h
  obtain ⟨hnodup, hchain, hstackpath, _⟩ := hinv
  rw [adjRel_buildAdj] at hchain hedge
  have hmem : d.neighbor ∈ d.state.path := (hstackpath d.neighbor).1 hstack
  obtain ⟨hhead, hclast⟩ := drop_indexOf_ends hmem
  rw [← hcyc, hlast] at hclast
  rw [← hcyc] at hhead
  have hne : d.node ≠ d.neighbor := by
    obtain ⟨e, he, h1, h2⟩ := hedge
    rw [← h1, ← h2]
    exact hreach.edge_ne e he
  refine ⟨d, hd, hnodup, hchain, hstackpath, ⟨k, hk, ?_⟩, hlast, hedge, hvis, hstack, hcyc,
    hhead, hclast, hne, ?_⟩
  · obtain ⟨t, ht⟩ := hprefix
    rw [← ht]
    rfl
  · rw [hhead, hclast]
    intro hc
    exact hne (Option.some.inj hc).symm

theorem reported_cycle_is_dfs_path_suffix_witness :
    ∃ d, detectDeadlockTrace multiInstanceScenario ["P2", "P1", "R1"] = some (.found d) ∧
      d.state.path.Nodup ∧ List.Chain' (HasEdge multiInstanceScenario) d.state.path ∧
      (∀ x, d.state.recStack x = true ↔ x ∈ d.state.path) ∧
      (∃ k ∈ ["P2", "P1", "R1"], d.state.path.head? = some k) ∧
      d.state.path.getLast? = some d.node ∧
      HasEdge multiInstanceScenario d.node d.neighbor ∧
      d.state.visited d.neighbor = true ∧ d.state.recStack d.neighbor = true ∧
      ["R1", "P1"] = d.state.path.drop (d.state.path.indexOf d.neighbor) ∧
      ["R1", "P1"].head? = some d.neighbor ∧
      ["R1", "P1"].getLast? = some d.node ∧
      d.node ≠ d.neighbor ∧
      (["R1", "P1"].head? : Option String) ≠ ["R1", "P1"].getLast? :=
  reported_cycle_is_dfs_path_suffix multiInstanceScenario reachable_multiInstanceScenario
    ["P2", "P1", "R1"] ["R1", "P1"] (by decide)

theorem multiInstance_detection_state :
    ∃ d, detectDeadlockTrace multiInstanceScenario ["P2", "P1", "R1"] = some (.found d) ∧
      d.state.path = ["P2", "R1", "P1"] ∧ d.node = "P1" ∧ d.neighbor = "R1" ∧
      detectDeadlockOrd multiInstanceScenario ["P2", "P1", "R1"] =
        some ⟨true, ["R1", "P1"]⟩ :=
  ⟨_, rfl, by decide, by decide, by decide, by decide⟩

/-! ## Repeated calls -/

theorem Machine.detectDeadlock_spec (enum : NodeMap → List String) (m : Machine) :
    ∃ s r, Machine.detectDeadlock enum m = some (⟨m.obj, s⟩, r) ∧
      detectDeadlockOrd m.obj (enum m.obj.nodes) = some r := by
  obtain ⟨r, hr, _⟩ := detectDeadlockOrd_returns m.obj (enum m.obj.nodes)
  have hst := detectLoop_eq_st (buildAdj m.obj.edges) (dfsFuel (enum m.obj.nodes) m.obj.edges)
    (enum m.obj.nodes) { visited := fun _ => false, recStack := fun _ => false, path := [] }
  unfold detectDeadlockOrd at hr
  rw [hr] at hst
  cases hl : detectLoopSt (buildAdj m.obj.edges) (dfsFuel (enum m.obj.nodes) m.obj.edges)
      (enum m.obj.nodes)
      { visited := fun _ => false, recStack := fun _ => false, path := [] } with
  | none => rw [hl] at hst; exact Option.noConfusion hst
  | some p =>
    obtain ⟨b, s⟩ := p
    rw [hl] at hst
    simp only [Option.map_some', Option.some.injEq] at hst
    refine ⟨s, r, ?_, hr⟩
    simp only [Machine.detectDeadlock, hl, hst]

/-- C13: a call of `detectDeadlock` returns a report and leaves the object, node map and
edge list included, as it found it, whatever an earlier call left in the locals. A second
call made on the machine left by the first, with no `addNode` or `addEdge` in between,
returns the identical report (same verdict, same cycle) although it finds the first
call's `visited`, `recStack` and `cycle` in the machine: none of it is read. Should the
second call enumerate the unchanged node map in another order, the verdict is still the
same, and the whole report is the same as soon as the orders agree. -/
theorem detectDeadlock_twice_same_report (enum : NodeMap → List String) (m : Machine) :
    ∃ m1 r, Machine.detectDeadlock enum m = some (m1, r) ∧
      m1.obj = m.obj ∧ m1.obj.nodes = m.obj.nodes ∧ m1.obj.edges = m.obj.edges ∧
      (∃ m2, Machine.detectDeadlock enum m1 = some (m2, r) ∧ m2.obj = m.obj) ∧
      (∀ enum2 : NodeMap → List String, (enum2 m.obj.nodes).Perm (enum m.obj.nodes) →
        ∃ m2 r2, Machine.detectDeadlock enum2 m1 = some (m2, r2) ∧
          r2.deadlocked = r.deadlocked ∧
          (enum2 m.obj.nodes = enum m.obj.nodes → r2 = r)) := by
  obtain ⟨s, r, hcall, hr⟩ := Machine.detectDeadlock_spec enum m
  refine ⟨⟨m.obj, s⟩, r, hcall, rfl, rfl, rfl, ?_, ?_⟩
  · obtain ⟨s2, r2, hcall2, hr2⟩ := Machine.detectDeadlock_spec enum ⟨m.obj, s⟩
    rw [hr] at hr2
    cases hr2
    exact ⟨_, hcall2, rfl⟩
  · intro enum2 hperm
    obtain ⟨s2, r2, hcall2, hr2⟩ := Machine.detectDeadlock_spec enum2 ⟨m.obj, s⟩
    obtain ⟨ra, hra, hva⟩ := detectDeadlockOrd_verdict m.obj (enum m.obj.nodes)
    obtain ⟨rb, hrb, hvb⟩ := detectDeadlockOrd_verdict m.obj (enum2 m.obj.nodes)
    rw [hr] at hra
    cases hra
    have hr2b : detectDeadlockOrd m.obj (enum2 m.obj.nodes) = some r2 := hr2
    rw [hr2b] at hrb
    cases hrb
    refine ⟨_, r2, hcall2, ?_, fun heq => ?_⟩
    · rw [Bool.eq_iff_iff, hva, hvb]
      constructor
      · rintro ⟨k, hk, hx⟩
        exact ⟨k, hperm.mem_iff.1 hk, hx⟩
      · rintro ⟨k, hk, hx⟩
        exact ⟨k, hperm.mem_iff.2 hk, hx⟩
    · rw [heq, hr] at hr2b
      exact (Option.some.inj hr2b).symm

theorem detectDeadlock_twice_same_report_witness :
    ∃ m1 r,
      Machine.detectDeadlock NodeMap.keys
        ⟨classicScenario,
          { visited := fun _ => true, recStack := fun _ => true, path := ["R2"] }⟩ =
        some (m1, r) ∧
      m1.obj = classicScenario ∧ m1.obj.nodes = classicScenario.nodes ∧
      m1.obj.edges = classicScenario.edges ∧
      (∃ m2, Machine.detectDeadlock NodeMap.keys m1 = some (m2, r) ∧
        m2.obj = classicScenario) ∧
      (∀ enum2 : NodeMap → List String,
        (enum2 classicScenario.nodes).Perm (NodeMap.keys classicScenario.nodes) →
        ∃ m2 r2, Machine.detectDeadlock enum2 m1 = some (m2, r2) ∧
          r2.deadlocked = r.deadlocked ∧
          (enum2 classicScenario.nodes = NodeMap.keys classicScenario.nodes → r2 = r)) :=
  detectDeadlock_twice_same_report NodeMap.keys
    ⟨classicScenario, { visited := fun _ => true, recStack := fun _ => true, path := ["R2"] }⟩

/-- The locals that the first call leaves behind are not the fresh ones: in the classic
scenario they mark `P1` as visited, and a loop that started from them instead of from
newly constructed locals would end with the verdict `false` where `detectDeadlock`
reports `true`. -/
theorem stale_locals_would_change_verdict :
    ∃ m1 r,
      Machine.detectDeadlock NodeMap.keys
        ⟨classicScenario, { visited := fun _ => false, recStack := fun _ => false, path := [] }⟩ =
          some (m1, r) ∧
      r.deadlocked = true ∧ m1.leftover.visited "P1" = true ∧
      (detectLoopSt (buildAdj classicScenario.edges)
        (dfsFuel classicScenario.nodes.keys classicScenario.edges)
        classicScenario.nodes.keys m1.leftover).map Prod.fst = some false :=
  ⟨_, _, rfl, by decide, by decide, by decide⟩


end RAG
